import Mathlib

/-!
Verification of the `go-s3-uploader` pipeline (`src/main.go`): recursive
zip extraction with a path-containment check, a directory-tree builder
that skips the `__MACOSX` sentinel, and a sequential walk-and-upload
stage with progress counters.

Paths are modelled as lists of characters (`GoStr`), and the Go standard
library functions the program calls (`filepath.Clean`, `filepath.Join`,
`filepath.Dir`, `strings.HasPrefix`, `strings.TrimPrefix`,
`strings.HasSuffix`) are reimplemented on that representation following
their documented lexical algorithms for Unix paths.
-/

namespace S3Up

/-- Paths and other Go strings, as lists of characters. -/
abbrev GoStr := List Char

/-- `os.PathSeparator` on Unix. -/
def sep : Char := '/'

/-- Boolean list-prefix test; `strings.HasPrefix s pre = isPfx pre s`. -/
def isPfx : GoStr → GoStr → Bool
  | [], _ => true
  | _ :: _, [] => false
  | a :: as, b :: bs => a == b && isPfx as bs

/-- `strings.HasSuffix s suf`. -/
def isSfx (suf s : GoStr) : Bool := isPfx suf.reverse s.reverse

/-- `strings.TrimPrefix s pre`. -/
def goTrimPfx (s pre : GoStr) : GoStr :=
  if isPfx pre s then s.drop pre.length else s

theorem isPfx_iff (p s : GoStr) : isPfx p s = true ↔ ∃ t, s = p ++ t := by
  induction p generalizing s with
  | nil =>
    constructor
    · intro _; exact ⟨s, rfl⟩
    · intro _; rfl
  | cons a as ih =>
    cases s with
    | nil =>
      constructor
      · intro h; simp [isPfx] at h
      · rintro ⟨t, ht⟩; exact absurd ht.symm (List.cons_ne_nil _ _)
    | cons b bs =>
      constructor
      · intro h
        have h' : (a == b && isPfx as bs) = true := h
        rw [Bool.and_eq_true] at h'
        obtain ⟨h1, h2⟩ := h'
        have hb : a = b := beq_iff_eq.mp h1
        obtain ⟨t, rfl⟩ := (ih bs).1 h2
        exact ⟨t, by rw [hb]; exact (List.cons_append b as t).symm⟩
      · rintro ⟨t, ht⟩
        rw [List.cons_append] at ht
        injection ht with h1 h2
        subst h1
        have h3 : isPfx as bs = true := (ih bs).2 ⟨t, h2⟩
        simp [isPfx, h3]

theorem isPfx_refl (p : GoStr) : isPfx p p = true :=
  (isPfx_iff p p).2 ⟨[], by simp⟩

theorem isPfx_append (p t : GoStr) : isPfx p (p ++ t) = true :=
  (isPfx_iff p (p ++ t)).2 ⟨t, rfl⟩

theorem isPfx_trans {a b c : GoStr} (h1 : isPfx a b = true)
    (h2 : isPfx b c = true) : isPfx a c = true := by
  rcases (isPfx_iff a b).1 h1 with ⟨t, rfl⟩
  rcases (isPfx_iff _ c).1 h2 with ⟨u, rfl⟩
  exact (isPfx_iff _ _).2 ⟨t ++ u, by simp⟩

/-- Split a character list on `'/'`.  Mirrors `strings.Split(s, "/")`:
the result is always non-empty and the separators are dropped. -/
def splitC : GoStr → List GoStr
  | [] => [[]]
  | c :: r =>
    if c = sep then [] :: splitC r
    else
      match splitC r with
      | s :: ss => (c :: s) :: ss
      | [] => [[c]]

/-- Join segments with `'/'` (inverse of `splitC` on slash-free segments). -/
def joinSegs : List GoStr → GoStr
  | [] => []
  | [s] => s
  | s :: rest => s ++ sep :: joinSegs rest

theorem splitC_ne_nil (s : GoStr) : splitC s ≠ [] := by
  cases s with
  | nil => simp [splitC]
  | cons c r =>
    simp only [splitC]
    split
    · simp
    · split <;> simp

/-- Unfolding `splitC` on a non-separator head. -/
theorem splitC_cons_ne {c : Char} (hc : c ≠ sep) {r s : GoStr} {ss : List GoStr}
    (hr : splitC r = s :: ss) : splitC (c :: r) = (c :: s) :: ss := by
  simp only [splitC]
  rw [if_neg hc, hr]

/-- Splitting distributes over an explicit separator. -/
theorem splitC_append_sep (x y : GoStr) :
    splitC (x ++ sep :: y) = splitC x ++ splitC y := by
  induction x with
  | nil => simp [splitC]
  | cons c r ih =>
    by_cases hc : c = sep
    · simp [splitC, hc, ih]
    · cases hr : splitC r with
      | nil => exact absurd hr (splitC_ne_nil r)
      | cons s ss =>
        have h1 : splitC (r ++ sep :: y) = s :: (ss ++ splitC y) := by
          rw [ih, hr]; rfl
        rw [List.cons_append, splitC_cons_ne hc h1, splitC_cons_ne hc hr]
        rfl

/-- Splitting a slash-free string yields a single segment. -/
theorem splitC_noslash (s : GoStr) (h : sep ∉ s) : splitC s = [s] := by
  induction s with
  | nil => rfl
  | cons c cs ih =>
    have hc : c ≠ sep := fun hh => h (hh ▸ List.mem_cons_self c cs)
    have h2 : splitC cs = [cs] := ih (fun hm => h (List.mem_cons_of_mem c hm))
    exact splitC_cons_ne hc h2

/-- `splitC` undoes `joinSegs` for non-empty lists of slash-free segments. -/
theorem splitC_joinSegs (segs : List GoStr) (hne : segs ≠ [])
    (hns : ∀ s ∈ segs, sep ∉ s) : splitC (joinSegs segs) = segs := by
  induction segs with
  | nil => exact absurd rfl hne
  | cons s rest ih =>
    cases rest with
    | nil => exact splitC_noslash s (hns s (by simp))
    | cons s2 rest2 =>
      have hj : joinSegs (s :: s2 :: rest2) = s ++ sep :: joinSegs (s2 :: rest2) := rfl
      rw [hj, splitC_append_sep, splitC_noslash s (hns s (by simp)),
        ih (by simp) (fun t ht => hns t (List.mem_cons_of_mem s ht))]
      rfl

/-- The `".."` path element. -/
def ddot : GoStr := ['.', '.']

/-- The `"."` path element. -/
def dotSeg : GoStr := ['.']

/-- The stack pass of `filepath.Clean`: process the path elements left to
right, keeping the output built so far (in reverse) in `acc`.  Empty and
`"."` elements are dropped; `".."` pops the previous element when one is
available, is dropped at the root of a rooted path, and is kept for a
relative path that cannot backtrack further. -/
def cleanSegs (rooted : Bool) : List GoStr → List GoStr → List GoStr
  | acc, [] => acc.reverse
  | acc, s :: rest =>
    if s = [] ∨ s = dotSeg then cleanSegs rooted acc rest
    else if s = ddot then
      match acc with
      | [] => if rooted then cleanSegs rooted [] rest else cleanSegs rooted [ddot] rest
      | a :: tl =>
        if rooted = false ∧ a = ddot then cleanSegs rooted (ddot :: a :: tl) rest
        else cleanSegs rooted tl rest
    else cleanSegs rooted (s :: acc) rest

/-- Reassemble the output of `cleanSegs` into a path string. -/
def renderSegs (rooted : Bool) (segs : List GoStr) : GoStr :=
  if rooted then sep :: joinSegs segs
  else if segs = [] then dotSeg else joinSegs segs

/-- `filepath.Clean` for Unix paths (lexical normalization). -/
def goClean (p : GoStr) : GoStr :=
  match p with
  | [] => dotSeg
  | c :: _ => renderSegs (c = sep) (cleanSegs (c = sep) [] (splitC p))

/-- `filepath.Join(a, b)` for Unix paths: empty elements are dropped, the
rest joined with `'/'` and the result cleaned; all-empty input yields `""`. -/
def goJoin (a b : GoStr) : GoStr :=
  if a = [] then (if b = [] then [] else goClean b)
  else if b = [] then goClean a
  else goClean (a ++ sep :: b)

/-- `filepath.Dir` for Unix paths: everything up to (and including) the
final separator, cleaned; `"."` when there is no separator. -/
def goDir (p : GoStr) : GoStr :=
  let parts := splitC p
  if parts.length ≤ 1 then dotSeg
  else goClean (joinSegs parts.dropLast ++ [sep])

example : goClean "a/b/../c".toList = "a/c".toList := by decide
example : goClean "/../x".toList = "/x".toList := by decide
example : goClean "a/../../b".toList = "../b".toList := by decide
example : goClean "".toList = ".".toList := by decide
example : goClean "//a//b/./".toList = "/a/b".toList := by decide
example : goJoin "d".toList "../x".toList = "x".toList := by decide
example : goJoin "uploads/".toList "/sub/f.txt".toList = "uploads/sub/f.txt".toList := by decide
example : goDir "/a/b/c".toList = "/a/b".toList := by decide
example : goDir "a.zip".toList = ".".toList := by decide
example : goDir "/x".toList = "/".toList := by decide
example : goDir "d/a.zip".toList = "d".toList := by decide

/-- A plain path element: non-empty, slash-free, neither `"."` nor `".."`. -/
def PlainSeg (s : GoStr) : Prop := s ≠ [] ∧ s ≠ dotSeg ∧ s ≠ ddot ∧ sep ∉ s

def AllPlain (l : List GoStr) : Prop := ∀ s ∈ l, PlainSeg s

def AllDots (l : List GoStr) : Prop := ∀ s ∈ l, s = ddot

/-- Shape of the `cleanSegs` stack for a relative path: plain elements on
top of a run of `".."` elements. -/
def PTD : List GoStr → Prop
  | [] => True
  | s :: r => (PlainSeg s ∧ PTD r) ∨ (s = ddot ∧ AllDots r)

/-- Shape of a cleaned relative path, read left to right: a run of `".."`
elements followed by plain elements. -/
def DP : List GoStr → Prop
  | [] => True
  | s :: r => (s = ddot ∧ DP r) ∨ (PlainSeg s ∧ AllPlain r)

/-- The elements of a cleaned path, rooted or not. -/
def GoodSegs (rooted : Bool) (segs : List GoStr) : Prop :=
  if rooted then AllPlain segs else DP segs

theorem ptd_of_alldots {l : List GoStr} (h : AllDots l) : PTD l := by
  induction l with
  | nil => trivial
  | cons s r ih =>
    exact Or.inr ⟨h s (by simp), fun t ht => h t (List.mem_cons_of_mem s ht)⟩

theorem ptd_pop {a : GoStr} {tl : List GoStr} (h : PTD (a :: tl)) : PTD tl := by
  rcases h with ⟨_, h2⟩ | ⟨_, h2⟩
  · exact h2
  · exact ptd_of_alldots h2

theorem dp_of_allplain {l : List GoStr} (h : AllPlain l) : DP l := by
  cases l with
  | nil => trivial
  | cons s r =>
    exact Or.inr ⟨h s (by simp), fun t ht => h t (List.mem_cons_of_mem s ht)⟩

theorem dp_of_alldots {l : List GoStr} (h : AllDots l) : DP l := by
  induction l with
  | nil => trivial
  | cons s r ih =>
    exact Or.inl ⟨h s (by simp), ih (fun t ht => h t (List.mem_cons_of_mem s ht))⟩

theorem dp_snoc_plain {l : List GoStr} {s : GoStr} (h : DP l) (hs : PlainSeg s) :
    DP (l ++ [s]) := by
  induction l with
  | nil => exact Or.inr ⟨hs, fun t ht => absurd ht (by simp)⟩
  | cons a r ih =>
    rcases h with ⟨h1, h2⟩ | ⟨h1, h2⟩
    · exact Or.inl ⟨h1, ih h2⟩
    · refine Or.inr ⟨h1, fun t ht => ?_⟩
      rcases List.mem_append.mp ht with hm | hm
      · exact h2 t hm
      · simp only [List.mem_singleton] at hm
        exact hm ▸ hs

/-- The stack of `cleanSegs` keeps the plains-over-dots shape, so the
final output (the reversed stack) is a dots-then-plains list. -/
theorem dp_reverse_of_ptd {l : List GoStr} (h : PTD l) : DP l.reverse := by
  induction l with
  | nil => trivial
  | cons s r ih =>
    rcases h with ⟨h1, h2⟩ | ⟨h1, h2⟩
    · simpa using dp_snoc_plain (ih h2) h1
    · refine dp_of_alldots ?_
      intro t ht
      simp only [List.reverse_cons, List.mem_append, List.mem_reverse,
        List.mem_singleton] at ht
      rcases ht with hm | hm
      · exact h2 t hm
      · exact hm ▸ h1

theorem plain_not_special {s : GoStr} (hs : PlainSeg s) :
    ¬(s = [] ∨ s = dotSeg) ∧ s ≠ ddot := by
  obtain ⟨h1, h2, h3, _⟩ := hs
  exact ⟨fun h => h.elim h1 h2, h3⟩

theorem ddot_not_skip : ¬(ddot = ([] : GoStr) ∨ ddot = dotSeg) := by decide

/-- Every element produced by `splitC` is slash-free. -/
theorem splitC_elems_noslash (p : GoStr) : ∀ t ∈ splitC p, sep ∉ t := by
  induction p with
  | nil =>
    intro t ht
    simp only [splitC, List.mem_singleton] at ht
    subst ht; simp
  | cons c r ih =>
    by_cases hc : c = sep
    · intro t ht
      simp only [splitC, if_pos hc, List.mem_cons] at ht
      rcases ht with rfl | hm
      · simp
      · exact ih t hm
    · cases hr : splitC r with
      | nil => exact absurd hr (splitC_ne_nil r)
      | cons s ss =>
        intro t ht
        rw [splitC_cons_ne hc hr] at ht
        rcases List.mem_cons.mp ht with rfl | hm
        · intro hmem
          rcases List.mem_cons.mp hmem with h | h
          · exact hc h.symm
          · exact ih s (hr ▸ List.mem_cons_self s ss) h
        · exact ih t (hr ▸ List.mem_cons_of_mem s hm)

/-- `cleanSegs` preserves the plains-over-dots stack shape; the result is
some final stack, reversed. -/
theorem cleanSegs_shape (rooted : Bool) (input : List GoStr)
    (hin : ∀ t ∈ input, sep ∉ t) :
    ∀ acc : List GoStr, PTD acc → (rooted = true → AllPlain acc) →
      ∃ acc', cleanSegs rooted acc input = acc'.reverse ∧ PTD acc' ∧
        (rooted = true → AllPlain acc') := by
  induction input with
  | nil => exact fun acc h1 h2 => ⟨acc, rfl, h1, h2⟩
  | cons s rest ih =>
    intro acc h1 h2
    have hrest : ∀ t ∈ rest, sep ∉ t := fun t ht => hin t (List.mem_cons_of_mem s ht)
    by_cases hskip : s = [] ∨ s = dotSeg
    · rw [show cleanSegs rooted acc (s :: rest) = cleanSegs rooted acc rest by
        simp [cleanSegs, hskip]]
      exact ih hrest acc h1 h2
    · by_cases hdd : s = ddot
      · subst hdd
        cases acc with
        | nil =>
          cases rooted with
          | true =>
            rw [show cleanSegs true [] (ddot :: rest) = cleanSegs true [] rest by
              simp [cleanSegs, hskip]]
            exact ih hrest [] trivial h2
          | false =>
            rw [show cleanSegs false [] (ddot :: rest) = cleanSegs false [ddot] rest by
              simp [cleanSegs, hskip]]
            refine ih hrest [ddot] (Or.inr ⟨rfl, ?_⟩) (by simp)
            intro t ht; simp at ht
        | cons a tl =>
          by_cases hpush : rooted = false ∧ a = ddot
          · rw [show cleanSegs rooted (a :: tl) (ddot :: rest) =
                cleanSegs rooted (ddot :: a :: tl) rest by
              simp [cleanSegs, hskip, hpush.1, hpush.2]]
            have halldots : AllDots (a :: tl) := by
              rcases h1 with ⟨hp, _⟩ | ⟨ha, hd⟩
              · exact absurd hpush.2 hp.2.2.1
              · intro t ht
                rcases List.mem_cons.mp ht with rfl | hm
                · exact ha
                · exact hd t hm
            refine ih hrest (ddot :: a :: tl) (Or.inr ⟨rfl, halldots⟩) ?_
            intro hr; exact absurd hr (by simp [hpush.1])
          · rw [show cleanSegs rooted (a :: tl) (ddot :: rest) =
                cleanSegs rooted tl rest by
              simp [cleanSegs, hskip, hpush]]
            exact ih hrest tl (ptd_pop h1)
              (fun hr => fun t ht => h2 hr t (List.mem_cons_of_mem a ht))
      · have hplain : PlainSeg s :=
          ⟨fun h => hskip (Or.inl h), fun h => hskip (Or.inr h), hdd,
            hin s (List.mem_cons_self s rest)⟩
        rw [show cleanSegs rooted acc (s :: rest) = cleanSegs rooted (s :: acc) rest by
          simp [cleanSegs, hskip, hdd]]
        refine ih hrest (s :: acc) (Or.inl ⟨hplain, h1⟩) ?_
        intro hr t ht
        rcases List.mem_cons.mp ht with rfl | hm
        · exact hplain
        · exact h2 hr t hm

theorem dp_elems {l : List GoStr} (h : DP l) : ∀ s ∈ l, s = ddot ∨ PlainSeg s := by
  induction l with
  | nil => intro s hs; simp at hs
  | cons a r ih =>
    intro s hs
    rcases List.mem_cons.mp hs with rfl | hm
    · rcases h with ⟨h1, _⟩ | ⟨h1, _⟩
      · exact Or.inl h1
      · exact Or.inr h1
    · rcases h with ⟨_, h2⟩ | ⟨_, h2⟩
      · exact ih h2 s hm
      · exact Or.inr (h2 s hm)

theorem goodsegs_elems {rooted : Bool} {l : List GoStr} (h : GoodSegs rooted l) :
    ∀ s ∈ l, s ≠ [] ∧ sep ∉ s := by
  intro s hs
  cases rooted with
  | true =>
    have hp : PlainSeg s := h s hs
    exact ⟨hp.1, hp.2.2.2⟩
  | false =>
    rcases dp_elems h s hs with rfl | hp
    · exact ⟨by simp [ddot], by simp [ddot, sep]⟩
    · exact ⟨hp.1, hp.2.2.2⟩

/-- `cleanSegs` is the identity on a list of plain elements. -/
theorem cleanSegs_allplain (rooted : Bool) (input : List GoStr) (h : AllPlain input) :
    ∀ acc, cleanSegs rooted acc input = acc.reverse ++ input := by
  induction input with
  | nil => intro acc; simp [cleanSegs]
  | cons s rest ih =>
    intro acc
    have hs := h s (List.mem_cons_self s rest)
    have h1 : ¬(s = [] ∨ s = dotSeg) := (plain_not_special hs).1
    rw [show cleanSegs rooted acc (s :: rest) = cleanSegs rooted (s :: acc) rest by
        simp [cleanSegs, h1, hs.2.2.1],
      ih (fun t ht => h t (List.mem_cons_of_mem s ht)) (s :: acc)]
    simp

/-- `cleanSegs` on a relative path is the identity on an already-cleaned
(dots-then-plains) list, starting from an all-dots stack. -/
theorem cleanSegs_dp (input : List GoStr) (h : DP input) :
    ∀ acc, AllDots acc → cleanSegs false acc input = acc.reverse ++ input := by
  induction input with
  | nil => intro acc _; simp [cleanSegs]
  | cons s rest ih =>
    intro acc hacc
    rcases h with ⟨rfl, hdp⟩ | ⟨hplain, hall⟩
    · cases acc with
      | nil =>
        rw [show cleanSegs false [] (ddot :: rest) = cleanSegs false [ddot] rest by
            simp [cleanSegs, ddot_not_skip],
          ih hdp [ddot] (by intro t ht; simpa using ht)]
        simp
      | cons a tl =>
        have ha : a = ddot := hacc a (List.mem_cons_self a tl)
        rw [show cleanSegs false (a :: tl) (ddot :: rest) =
            cleanSegs false (ddot :: a :: tl) rest by simp [cleanSegs, ha, ddot_not_skip],
          ih hdp (ddot :: a :: tl) ?_]
        · simp
        · intro t ht
          rcases List.mem_cons.mp ht with rfl | hm
          · rfl
          · exact hacc t hm
    · have h1 : ¬(s = [] ∨ s = dotSeg) := (plain_not_special hplain).1
      rw [show cleanSegs false acc (s :: rest) = cleanSegs false (s :: acc) rest by
          simp [cleanSegs, h1, hplain.2.2.1],
        cleanSegs_allplain false rest hall (s :: acc)]
      simp

/-- `goClean` always produces a rooted-or-relative cleaned form. -/
theorem goClean_form (p : GoStr) :
    ∃ rooted segs, GoodSegs rooted segs ∧ goClean p = renderSegs rooted segs := by
  cases p with
  | nil => exact ⟨false, [], trivial, rfl⟩
  | cons c r =>
    obtain ⟨acc', heq, hptd, hplane⟩ :=
      cleanSegs_shape (decide (c = sep)) (splitC (c :: r))
        (splitC_elems_noslash (c :: r)) [] trivial (fun _ => by intro t ht; simp at ht)
    refine ⟨decide (c = sep), acc'.reverse, ?_, ?_⟩
    · cases hd : decide (c = sep) with
      | true =>
        intro t ht
        exact hplane hd t (List.mem_reverse.mp ht)
      | false =>
        exact dp_reverse_of_ptd hptd
    · show renderSegs (decide (c = sep)) (cleanSegs (decide (c = sep)) [] (splitC (c :: r))) = _
      rw [heq]

/-- `goClean` fixes every cleaned form. -/
theorem renderSegs_clean {rooted : Bool} {segs : List GoStr} (h : GoodSegs rooted segs) :
    goClean (renderSegs rooted segs) = renderSegs rooted segs := by
  cases rooted with
  | true =>
    cases segs with
    | nil => decide
    | cons s1 rest =>
      have hne : s1 :: rest ≠ [] := by simp
      have hns : ∀ t ∈ s1 :: rest, sep ∉ t := fun t ht => ((goodsegs_elems h) t ht).2
      have hsplit : splitC (sep :: joinSegs (s1 :: rest)) =
          [] :: (s1 :: rest) := by
        rw [show splitC (sep :: joinSegs (s1 :: rest)) =
            [] :: splitC (joinSegs (s1 :: rest)) by simp [splitC],
          splitC_joinSegs _ hne hns]
      show goClean (sep :: joinSegs (s1 :: rest)) = _
      rw [show goClean (sep :: joinSegs (s1 :: rest)) =
          renderSegs (decide (sep = sep))
            (cleanSegs (decide (sep = sep)) [] (splitC (sep :: joinSegs (s1 :: rest))))
          from rfl,
        hsplit]
      have hd : (decide (sep = sep)) = true := by decide
      rw [hd]
      rw [show cleanSegs true [] ([] :: s1 :: rest) = cleanSegs true [] (s1 :: rest) by
        simp [cleanSegs]]
      rw [cleanSegs_allplain true (s1 :: rest) h []]
      rfl
  | false =>
    cases segs with
    | nil => decide
    | cons s1 rest =>
      have hs1 : s1 = ddot ∨ PlainSeg s1 := dp_elems h s1 (List.mem_cons_self s1 rest)
      have hs1ne : s1 ≠ [] := ((goodsegs_elems h) s1 (List.mem_cons_self s1 rest)).1
      have hns : ∀ t ∈ s1 :: rest, sep ∉ t := fun t ht => ((goodsegs_elems h) t ht).2
      obtain ⟨c, cs, rfl⟩ : ∃ c cs, s1 = c :: cs := by
        cases s1 with
        | nil => exact absurd rfl hs1ne
        | cons c cs => exact ⟨c, cs, rfl⟩
      have hcsep : ¬(c = sep) := by
        intro hc
        exact (hns (c :: cs) (List.mem_cons_self _ rest)) (hc ▸ List.mem_cons_self c cs)
      have hrender : renderSegs false ((c :: cs) :: rest) = joinSegs ((c :: cs) :: rest) := by
        simp [renderSegs]
      have hjoin : ∃ tail, joinSegs ((c :: cs) :: rest) = c :: tail := by
        cases rest with
        | nil => exact ⟨cs, rfl⟩
        | cons s2 r2 => exact ⟨cs ++ sep :: joinSegs (s2 :: r2), rfl⟩
      obtain ⟨tail, htail⟩ := hjoin
      rw [hrender, htail]
      show renderSegs (decide (c = sep)) (cleanSegs (decide (c = sep)) [] (splitC (c :: tail))) = _
      have hd : (decide (c = sep)) = false := decide_eq_false hcsep
      rw [hd, ← htail, splitC_joinSegs _ (by simp) hns,
        cleanSegs_dp _ h [] (by intro t ht; simp at ht)]
      simp [renderSegs]

/-- `filepath.Clean` is idempotent. -/
theorem goClean_idem (p : GoStr) : goClean (goClean p) = goClean p := by
  obtain ⟨rooted, segs, hg, heq⟩ := goClean_form p
  rw [heq, renderSegs_clean hg]

/-- A trailing empty element is invisible to `cleanSegs`. -/
theorem cleanSegs_append_nilseg (rooted : Bool) (input : List GoStr) :
    ∀ acc, cleanSegs rooted acc (input ++ [[]]) = cleanSegs rooted acc input := by
  induction input with
  | nil =>
    intro acc
    show cleanSegs rooted acc [[]] = cleanSegs rooted acc []
    simp [cleanSegs]
  | cons s rest ih =>
    intro acc
    rw [List.cons_append]
    by_cases hskip : s = [] ∨ s = dotSeg
    · rw [show cleanSegs rooted acc (s :: (rest ++ [[]])) =
          cleanSegs rooted acc (rest ++ [[]]) by simp [cleanSegs, hskip],
        show cleanSegs rooted acc (s :: rest) = cleanSegs rooted acc rest by
          simp [cleanSegs, hskip]]
      exact ih acc
    · by_cases hdd : s = ddot
      · subst hdd
        cases acc with
        | nil =>
          cases rooted with
          | true =>
            rw [show cleanSegs true [] (ddot :: (rest ++ [[]])) =
                cleanSegs true [] (rest ++ [[]]) by simp [cleanSegs, hskip],
              show cleanSegs true [] (ddot :: rest) = cleanSegs true [] rest by
                simp [cleanSegs, hskip]]
            exact ih []
          | false =>
            rw [show cleanSegs false [] (ddot :: (rest ++ [[]])) =
                cleanSegs false [ddot] (rest ++ [[]]) by simp [cleanSegs, hskip],
              show cleanSegs false [] (ddot :: rest) = cleanSegs false [ddot] rest by
                simp [cleanSegs, hskip]]
            exact ih [ddot]
        | cons a tl =>
          by_cases hpush : rooted = false ∧ a = ddot
          · rw [show cleanSegs rooted (a :: tl) (ddot :: (rest ++ [[]])) =
                cleanSegs rooted (ddot :: a :: tl) (rest ++ [[]]) by
                  simp [cleanSegs, hskip, hpush.1, hpush.2],
              show cleanSegs rooted (a :: tl) (ddot :: rest) =
                cleanSegs rooted (ddot :: a :: tl) rest by
                  simp [cleanSegs, hskip, hpush.1, hpush.2]]
            exact ih _
          · rw [show cleanSegs rooted (a :: tl) (ddot :: (rest ++ [[]])) =
                cleanSegs rooted tl (rest ++ [[]]) by simp [cleanSegs, hskip, hpush],
              show cleanSegs rooted (a :: tl) (ddot :: rest) = cleanSegs rooted tl rest by
                simp [cleanSegs, hskip, hpush]]
            exact ih tl
      · rw [show cleanSegs rooted acc (s :: (rest ++ [[]])) =
            cleanSegs rooted (s :: acc) (rest ++ [[]]) by simp [cleanSegs, hskip, hdd],
          show cleanSegs rooted acc (s :: rest) = cleanSegs rooted (s :: acc) rest by
            simp [cleanSegs, hskip, hdd]]
        exact ih _

theorem dp_dropLast {l : List GoStr} (h : DP l) : DP l.dropLast := by
  induction l with
  | nil => trivial
  | cons s r ih =>
    cases r with
    | nil => trivial
    | cons s2 r2 =>
      rw [List.dropLast_cons₂]
      rcases h with ⟨h1, h2⟩ | ⟨h1, h2⟩
      · exact Or.inl ⟨h1, ih h2⟩
      · exact Or.inr ⟨h1, fun t ht => h2 t (List.dropLast_subset _ ht)⟩

theorem goodsegs_dropLast {rooted : Bool} {segs : List GoStr} (h : GoodSegs rooted segs) :
    GoodSegs rooted segs.dropLast := by
  cases rooted with
  | true => exact fun t ht => h t (List.dropLast_subset _ ht)
  | false => exact dp_dropLast h

theorem joinSegs_append {xs ys : List GoStr} (hx : xs ≠ []) (hy : ys ≠ []) :
    joinSegs (xs ++ ys) = joinSegs xs ++ sep :: joinSegs ys := by
  induction xs with
  | nil => exact absurd rfl hx
  | cons s rest ih =>
    cases rest with
    | nil =>
      cases ys with
      | nil => exact absurd rfl hy
      | cons y ys2 => rfl
    | cons s2 r2 =>
      have h1 : joinSegs (s :: (s2 :: r2 ++ ys)) = s ++ sep :: joinSegs (s2 :: r2 ++ ys) := by
        cases r2 <;> rfl
      rw [List.cons_append, h1, ih (by simp)]
      show s ++ sep :: (joinSegs (s2 :: r2) ++ sep :: joinSegs ys) =
        (s ++ sep :: joinSegs (s2 :: r2)) ++ sep :: joinSegs ys
      simp

/-- Evaluate `goClean` once the head character is known. -/
theorem goClean_eval {p : GoStr} {c : Char} {cs : GoStr} (hp : p = c :: cs) :
    goClean p =
      renderSegs (decide (c = sep)) (cleanSegs (decide (c = sep)) [] (splitC p)) := by
  subst hp; rfl

theorem splitC_renderSegs_true {segs : List GoStr} (hne : segs ≠ [])
    (hns : ∀ t ∈ segs, sep ∉ t) :
    splitC (renderSegs true segs) = [] :: segs := by
  show splitC (sep :: joinSegs segs) = _
  rw [show splitC (sep :: joinSegs segs) = [] :: splitC (joinSegs segs) by simp [splitC],
    splitC_joinSegs segs hne hns]

theorem splitC_renderSegs_false {segs : List GoStr} (hne : segs ≠ [])
    (hns : ∀ t ∈ segs, sep ∉ t) :
    splitC (renderSegs false segs) = segs := by
  rw [show renderSegs false segs = joinSegs segs by simp [renderSegs, hne]]
  exact splitC_joinSegs segs hne hns

theorem goClean_rooted_dir {xs : List GoStr} (hap : AllPlain xs) :
    goClean (joinSegs ([] :: xs) ++ [sep]) = renderSegs true xs := by
  cases xs with
  | nil => decide
  | cons d ds =>
    have hne : (d :: ds : List GoStr) ≠ [] := by simp
    have hns : ∀ t ∈ d :: ds, sep ∉ t := fun t ht => (hap t ht).2.2.2
    have harg : joinSegs ([] :: d :: ds) ++ [sep] =
        sep :: (joinSegs (d :: ds) ++ [sep]) := rfl
    rw [harg, goClean_eval rfl]
    have hd : (decide (sep = sep)) = true := by decide
    rw [hd]
    have hsp : splitC (sep :: (joinSegs (d :: ds) ++ [sep])) =
        [] :: ((d :: ds) ++ [[]]) := by
      rw [show splitC (sep :: (joinSegs (d :: ds) ++ [sep])) =
          [] :: splitC (joinSegs (d :: ds) ++ [sep]) by simp [splitC],
        show joinSegs (d :: ds) ++ [sep] = joinSegs (d :: ds) ++ sep :: [] from rfl,
        splitC_append_sep, splitC_joinSegs _ hne hns]
      rfl
    rw [hsp,
      show cleanSegs true [] ([] :: ((d :: ds) ++ [[]])) =
        cleanSegs true [] ((d :: ds) ++ [[]]) by simp [cleanSegs],
      cleanSegs_append_nilseg, cleanSegs_allplain true _ hap []]
    rfl

theorem goClean_join_sep_false {xs : List GoStr} (hdp : DP xs) (hne : xs ≠ []) :
    goClean (joinSegs xs ++ [sep]) = renderSegs false xs := by
  have hgood : GoodSegs false xs := hdp
  have hns : ∀ t ∈ xs, sep ∉ t := fun t ht => (goodsegs_elems hgood t ht).2
  obtain ⟨s1, rest, rfl⟩ : ∃ s1 rest, xs = s1 :: rest := by
    cases xs with
    | nil => exact absurd rfl hne
    | cons a b => exact ⟨a, b, rfl⟩
  obtain ⟨c, cs, rfl⟩ : ∃ c cs, s1 = c :: cs := by
    cases s1 with
    | nil => exact absurd rfl ((goodsegs_elems hgood) _ (List.mem_cons_self _ rest)).1
    | cons c cs => exact ⟨c, cs, rfl⟩
  have hcsep : ¬(c = sep) := fun hc =>
    (hns (c :: cs) (List.mem_cons_self _ rest)) (hc ▸ List.mem_cons_self c cs)
  have hjoin : ∃ tail, joinSegs ((c :: cs) :: rest) = c :: tail := by
    cases rest with
    | nil => exact ⟨cs, rfl⟩
    | cons s2 r2 => exact ⟨cs ++ sep :: joinSegs (s2 :: r2), rfl⟩
  obtain ⟨tail, htail⟩ := hjoin
  have harg : joinSegs ((c :: cs) :: rest) ++ [sep] = c :: (tail ++ [sep]) := by
    rw [htail]; rfl
  rw [goClean_eval harg, decide_eq_false hcsep,
    show joinSegs ((c :: cs) :: rest) ++ [sep] =
      joinSegs ((c :: cs) :: rest) ++ sep :: [] from rfl,
    splitC_append_sep, splitC_joinSegs _ (by simp) hns,
    show splitC ([] : GoStr) = [[]] from rfl,
    cleanSegs_append_nilseg, cleanSegs_dp _ hdp [] (by intro t ht; simp at ht)]
  rfl

/-- `filepath.Dir` drops the last element of a non-trivial cleaned form. -/
theorem goDir_render {rooted : Bool} {segs : List GoStr} (h : GoodSegs rooted segs)
    (hne : segs ≠ []) :
    goDir (renderSegs rooted segs) = renderSegs rooted segs.dropLast := by
  have hns : ∀ t ∈ segs, sep ∉ t := fun t ht => (goodsegs_elems h t ht).2
  obtain ⟨s1, rest, rfl⟩ : ∃ s1 rest, segs = s1 :: rest := by
    cases segs with
    | nil => exact absurd rfl hne
    | cons a b => exact ⟨a, b, rfl⟩
  cases rooted with
  | true =>
    have hsplit := splitC_renderSegs_true hne hns
    have hlen : ¬((([] : GoStr) :: s1 :: rest).length ≤ 1) := by simp
    rw [show goDir (renderSegs true (s1 :: rest)) =
        goClean (joinSegs (splitC (renderSegs true (s1 :: rest))).dropLast ++ [sep]) by
          rw [goDir, hsplit]; exact if_neg hlen,
      hsplit, List.dropLast_cons₂, goClean_rooted_dir
        (fun t ht => h t (List.dropLast_subset _ ht))]
  | false =>
    cases rest with
    | nil =>
      have hsp : splitC (renderSegs false [s1]) = [s1] := splitC_renderSegs_false hne hns
      rw [show goDir (renderSegs false [s1]) = dotSeg by
        rw [goDir, hsp]; rfl]
      rfl
    | cons s2 r2 =>
      have hsplit := splitC_renderSegs_false hne hns
      have hlen : ¬((s1 :: s2 :: r2).length ≤ 1) := by simp
      have hdl_ne : (s1 :: s2 :: r2).dropLast ≠ [] := by
        rw [List.dropLast_cons₂]; simp
      rw [show goDir (renderSegs false (s1 :: s2 :: r2)) =
          goClean (joinSegs (splitC (renderSegs false (s1 :: s2 :: r2))).dropLast ++ [sep]) by
            rw [goDir, hsplit]; exact if_neg hlen,
        hsplit, goClean_join_sep_false (dp_dropLast h) hdl_ne]

theorem splitC_len_pos (R : GoStr) : 0 < (splitC R).length := by
  cases hsr : splitC R with
  | nil => exact absurd hsr (splitC_ne_nil R)
  | cons x xs => simp

theorem isPfx_length {p s : GoStr} (h : isPfx p s = true) : p.length ≤ s.length := by
  obtain ⟨t, rfl⟩ := (isPfx_iff _ _).1 h
  simp

theorem dropLast_append_left {α : Type} {l e : List α} (he : e ≠ []) :
    (l ++ e).dropLast = l ++ e.dropLast := by
  induction l with
  | nil => rfl
  | cons x xs ih =>
    cases hxe : xs ++ e with
    | nil => exact absurd (List.append_eq_nil.mp hxe).2 he
    | cons y ys =>
      rw [List.cons_append, hxe, List.dropLast_cons₂, ← hxe, ih]
      rfl

/-- If one cleaned form followed by a separator is a character-level
prefix of another cleaned form, then the second form's element list
strictly extends the first form's, with the same rooted flag. -/
theorem render_pfx {r1 r2 : Bool} {a b : List GoStr}
    (h1 : GoodSegs r1 a) (h2 : GoodSegs r2 b)
    (hp : isPfx (renderSegs r1 a ++ [sep]) (renderSegs r2 b) = true) :
    r1 = r2 ∧ a ≠ [] ∧ ∃ extra, extra ≠ [] ∧ b = a ++ extra := by
  obtain ⟨R, hR⟩ := (isPfx_iff _ _).1 hp
  have hsplit : splitC (renderSegs r2 b) = splitC (renderSegs r1 a) ++ splitC R := by
    rw [hR, List.append_assoc, List.singleton_append]
    exact splitC_append_sep _ R
  have hAel := goodsegs_elems h1
  have hBel := goodsegs_elems h2
  have hAns : ∀ t ∈ a, sep ∉ t := fun t ht => (hAel t ht).2
  have hBns : ∀ t ∈ b, sep ∉ t := fun t ht => (hBel t ht).2
  cases r1 with
  | true =>
    cases r2 with
    | true =>
      cases a with
      | nil =>
        exfalso
        have hA : splitC (renderSegs true ([] : List GoStr)) = [[], []] := rfl
        cases b with
        | nil =>
          rw [hA] at hsplit
          have hlenR := splitC_len_pos R
          have hlen := congrArg List.length hsplit
          simp only [List.length_append, List.length_cons, List.length_nil] at hlen
          omega
        | cons b1 bs =>
          have hB : splitC (renderSegs true (b1 :: bs)) = [] :: b1 :: bs :=
            splitC_renderSegs_true (by simp) hBns
          rw [hA, hB] at hsplit
          simp only [List.cons_append, List.nil_append] at hsplit
          injection hsplit with _ h'
          injection h' with h'' _
          exact (hBel b1 (by simp)).1 h''
      | cons a1 as2 =>
        have hA : splitC (renderSegs true (a1 :: as2)) = [] :: a1 :: as2 :=
          splitC_renderSegs_true (by simp) hAns
        cases b with
        | nil =>
          exfalso
          have hB : splitC (renderSegs true ([] : List GoStr)) = [[], []] := rfl
          rw [hA, hB] at hsplit
          simp only [List.cons_append, List.nil_append] at hsplit
          injection hsplit with _ h'
          injection h' with h'' _
          exact (hAel a1 (by simp)).1 h''.symm
        | cons b1 bs =>
          have hB : splitC (renderSegs true (b1 :: bs)) = [] :: b1 :: bs :=
            splitC_renderSegs_true (by simp) hBns
          rw [hA, hB] at hsplit
          simp only [List.cons_append, List.nil_append] at hsplit
          injection hsplit with _ h'
          exact ⟨rfl, by simp, splitC R, splitC_ne_nil R, h'⟩
    | false =>
      exfalso
      obtain ⟨ta, hA⟩ : ∃ ta, splitC (renderSegs true a) = [] :: ta := by
        cases a with
        | nil => exact ⟨[[]], rfl⟩
        | cons a1 as2 => exact ⟨a1 :: as2, splitC_renderSegs_true (by simp) hAns⟩
      cases b with
      | nil =>
        have hB : splitC (renderSegs false ([] : List GoStr)) = [dotSeg] := rfl
        rw [hA, hB] at hsplit
        simp only [List.cons_append, List.nil_append] at hsplit
        injection hsplit with h'' _
        exact (by decide : dotSeg ≠ ([] : GoStr)) h''
      | cons b1 bs =>
        have hB : splitC (renderSegs false (b1 :: bs)) = b1 :: bs :=
          splitC_renderSegs_false (by simp) hBns
        rw [hA, hB] at hsplit
        simp only [List.cons_append, List.nil_append] at hsplit
        injection hsplit with h'' _
        exact (hBel b1 (by simp)).1 h''
  | false =>
    cases r2 with
    | true =>
      exfalso
      obtain ⟨tb, hB⟩ : ∃ tb, splitC (renderSegs true b) = [] :: tb := by
        cases b with
        | nil => exact ⟨[[]], rfl⟩
        | cons b1 bs => exact ⟨b1 :: bs, splitC_renderSegs_true (by simp) hBns⟩
      cases a with
      | nil =>
        have hA : splitC (renderSegs false ([] : List GoStr)) = [dotSeg] := rfl
        rw [hA, hB] at hsplit
        simp only [List.cons_append, List.nil_append] at hsplit
        injection hsplit with h'' _
        exact (by decide : ([] : GoStr) ≠ dotSeg) h''
      | cons a1 as2 =>
        have hA : splitC (renderSegs false (a1 :: as2)) = a1 :: as2 :=
          splitC_renderSegs_false (by simp) hAns
        rw [hA, hB] at hsplit
        simp only [List.cons_append, List.nil_append] at hsplit
        injection hsplit with h'' _
        exact (hAel a1 (by simp)).1 h''.symm
    | false =>
      cases a with
      | nil =>
        exfalso
        have hA : splitC (renderSegs false ([] : List GoStr)) = [dotSeg] := rfl
        cases b with
        | nil =>
          rw [hA] at hsplit
          simp only [List.cons_append, List.nil_append] at hsplit
          injection hsplit with _ h'
          exact splitC_ne_nil R h'.symm
        | cons b1 bs =>
          have hB : splitC (renderSegs false (b1 :: bs)) = b1 :: bs :=
            splitC_renderSegs_false (by simp) hBns
          rw [hA, hB] at hsplit
          simp only [List.cons_append, List.nil_append] at hsplit
          injection hsplit with h'' _
          rcases dp_elems h2 b1 (by simp) with hd | hp2
          · exact (by decide : ddot ≠ dotSeg) (hd ▸ h'')
          · exact hp2.2.1 h''
      | cons a1 as2 =>
        have hA : splitC (renderSegs false (a1 :: as2)) = a1 :: as2 :=
          splitC_renderSegs_false (by simp) hAns
        cases b with
        | nil =>
          exfalso
          have hB : splitC (renderSegs false ([] : List GoStr)) = [dotSeg] := rfl
          rw [hA, hB] at hsplit
          have hlenR := splitC_len_pos R
          have hlen := congrArg List.length hsplit
          simp only [List.length_append, List.length_cons, List.length_nil] at hlen
          omega
        | cons b1 bs =>
          have hB : splitC (renderSegs false (b1 :: bs)) = b1 :: bs :=
            splitC_renderSegs_false (by simp) hBns
          rw [hA, hB] at hsplit
          exact ⟨rfl, by simp, splitC R, splitC_ne_nil R, hsplit⟩

/-- Appending extra elements to a cleaned form extends it below the
separator that follows the original form. -/
theorem renderSegs_append (rooted : Bool) {a e : List GoStr} (ha : a ≠ []) (he : e ≠ []) :
    renderSegs rooted (a ++ e) = renderSegs rooted a ++ sep :: joinSegs e := by
  cases rooted with
  | true =>
    show sep :: joinSegs (a ++ e) = (sep :: joinSegs a) ++ sep :: joinSegs e
    rw [joinSegs_append ha he]
    rfl
  | false =>
    rw [show renderSegs false (a ++ e) = joinSegs (a ++ e) by
        simp [renderSegs, ha, he],
      show renderSegs false a = joinSegs a by simp [renderSegs, ha],
      joinSegs_append ha he]

/-- `filepath.Join` outputs are fixed by `filepath.Clean` (except for the
all-empty case, where `Join` returns `""`). -/
theorem goJoin_clean {a b : GoStr} (h : ¬(a = [] ∧ b = [])) :
    goClean (goJoin a b) = goJoin a b := by
  by_cases ha : a = []
  · have hb : b ≠ [] := fun hb => h ⟨ha, hb⟩
    rw [show goJoin a b = goClean b by simp [goJoin, ha, hb]]
    exact goClean_idem b
  · by_cases hb : b = []
    · rw [show goJoin a b = goClean a by simp [goJoin, ha, hb]]
      exact goClean_idem a
    · rw [show goJoin a b = goClean (a ++ sep :: b) by simp [goJoin, ha, hb]]
      exact goClean_idem _

/-- Containment in a nested extraction root implies containment in the
outer root: when `path` is a `Clean`-fixed path lying strictly inside
`dst`, anything strictly inside `Dir(path)` also lies strictly inside
`dst`. -/
theorem inside_goDir_trans {dst path q : GoStr}
    (hfix : goClean path = path)
    (hchk : isPfx (goClean dst ++ [sep]) (goClean path) = true)
    (hq : isPfx (goClean (goDir path) ++ [sep]) q = true) :
    isPfx (goClean dst ++ [sep]) q = true := by
  obtain ⟨rD, segsD, hgD, heD⟩ := goClean_form dst
  obtain ⟨rP, segsP, hgP, heP⟩ := goClean_form path
  rw [heD, heP] at hchk
  obtain ⟨rflr, hDne, extra, hexne, hbe⟩ := render_pfx hgD hgP hchk
  have hpath : path = renderSegs rP segsP := by rw [← hfix, heP]
  have hPne : segsP ≠ [] := by
    rw [hbe]
    intro hcontra
    exact hexne (List.append_eq_nil.mp hcontra).2
  have hdirclean : goClean (goDir path) = renderSegs rP segsP.dropLast := by
    rw [hpath, goDir_render hgP hPne]
    exact renderSegs_clean (goodsegs_dropLast hgP)
  have hdl : segsP.dropLast = segsD ++ extra.dropLast := by
    rw [hbe]
    exact dropLast_append_left hexne
  cases hext : extra.dropLast with
  | nil =>
    have hsame : goClean (goDir path) = goClean dst := by
      rw [hdirclean, hdl, hext, List.append_nil, heD, rflr]
    rw [hsame] at hq
    exact hq
  | cons e1 es =>
    have hpfx2 : isPfx (goClean dst ++ [sep]) (goClean (goDir path) ++ [sep]) = true := by
      rw [hdirclean, hdl, hext, renderSegs_append rP hDne (by simp), heD, rflr]
      rw [show (renderSegs rP segsD ++ sep :: joinSegs (e1 :: es)) ++ [sep] =
          (renderSegs rP segsD ++ [sep]) ++ (joinSegs (e1 :: es) ++ [sep]) by simp]
      exact isPfx_append _ _
    exact isPfx_trans hpfx2 hq

/-! ## Archive and filesystem model

A zip archive is a list of entries; an entry's content is either raw
bytes or itself a zip archive (so that the nested-extraction recursion of
`extractZipFiles` is expressible).  The filesystem is a flat map from
paths to file contents plus a set of directories. -/

mutual
inductive Content where
  | bytes (data : GoStr) : Content
  | zipData (entries : List ZEntry) : Content

inductive ZEntry where
  | mk (name : GoStr) (entryIsDir : Bool) (mode : Nat) (content : Content) : ZEntry
end

def ZEntry.name : ZEntry → GoStr
  | .mk n _ _ _ => n

def ZEntry.isDir : ZEntry → Bool
  | .mk _ d _ _ => d

def ZEntry.content : ZEntry → Content
  | .mk _ _ _ c => c

structure FS where
  files : List (GoStr × Content)
  dirs : List GoStr

/-- Non-empty prefixes of a segment list, shortest first. -/
def segPrefixes : List GoStr → List (List GoStr)
  | [] => []
  | s :: rest => [s] :: (segPrefixes rest).map (fun l => s :: l)

/-- The directories `os.MkdirAll(p)` guarantees to exist: the cleaned
path and each of its ancestors (no entry for `"."` or `"/"`). -/
def mkdirPaths (p : GoStr) : List GoStr :=
  let q := goClean p
  if q = dotSeg ∨ q = [sep] then []
  else
    match q with
    | [] => []
    | c :: _ =>
      let rooted : Bool := c = sep
      let segs := if rooted then (splitC q).tail else splitC q
      (segPrefixes segs).map (renderSegs rooted)

example : mkdirPaths "a/b/c".toList = ["a".toList, "a/b".toList, "a/b/c".toList] := by
  decide
example : mkdirPaths "/a//b/".toList = ["/a".toList, "/a/b".toList] := by decide
example : mkdirPaths ".".toList = [] := by decide

def FS.lookupFile (fs : FS) (p : GoStr) : Option Content := List.lookup p fs.files

/-- `os.MkdirAll`: creates the directory and all missing ancestors;
fails when some required component exists as a regular file. -/
def FS.mkdirAll (fs : FS) (p : GoStr) : Option FS :=
  if (mkdirPaths p).any (fun q => (List.lookup q fs.files).isSome) then none
  else some { fs with
    dirs := (mkdirPaths p).foldl (fun d q => if q ∈ d then d else d ++ [q]) fs.dirs }

/-- `os.OpenFile(path, O_WRONLY|O_CREATE|O_TRUNC, mode)` followed by
`io.Copy`: creates or truncates the file at `path`; fails when `path`
is an existing directory. -/
def FS.createFile (fs : FS) (p : GoStr) (c : Content) : Option FS :=
  if p ∈ fs.dirs then none
  else some { fs with files := (p, c) :: fs.files.filter (fun q => ¬(q.1 = p)) }

/-- `os.Remove` on a file path: fails when no file is present. -/
def FS.removeFile (fs : FS) (p : GoStr) : Option FS :=
  if (List.lookup p fs.files).isSome then
    some { fs with files := fs.files.filter (fun q => ¬(q.1 = p)) }
  else none

/-- `zip.OpenReader`: succeeds exactly on files holding archive data. -/
def FS.openZip (fs : FS) (p : GoStr) : Option (List ZEntry) :=
  match List.lookup p fs.files with
  | some (Content.zipData es) => some es
  | _ => none

inductive ExtractErr where
  | mkdirErr (path : GoStr)
  | archiveOpenErr (path : GoStr)
  | illegalPath (name : GoStr)
  | createFileErr (path : GoStr)
  | removeErr (path : GoStr)
  | outOfFuel
deriving DecidableEq

/-- `"__MACOSX/"`, the sentinel skipped by the extractor. -/
def macosxPfx : GoStr := "__MACOSX/".toList

/-- `".zip"`, the nested-archive suffix. -/
def zipSuffix : GoStr := ".zip".toList

/-- The entry loop of `extractZipFiles` (src/main.go lines 63-119),
processing entries in order against destination `dst`; `nested` stands
for the recursive call `extractZipFiles(path, filepath.Dir(path))` made
for just-written `.zip` files.  The result is the error, if any, plus
the filesystem as left behind.

Modelling grain: an entry's content is the archive's data as captured
when the archive was opened.  The Go reader instead streams entry data
from the archive file on demand at `io.Copy` time, so a copy whose
destination aliases the archive currently being read truncates its own
source and fails; the model's copy succeeds there.  Runs in which every
copy streams from an archive file whose on-disk content is unmodified
since that archive was opened follow the Go code step for step (the
name checks, directory creations and removals read no entry data). -/
def extractEntriesGo (nested : FS → GoStr → GoStr → Option ExtractErr × FS) :
    FS → GoStr → List ZEntry → Option ExtractErr × FS
  | fs, _, [] => (none, fs)
  | fs, dst, e :: rest =>
    if isPfx macosxPfx e.name then extractEntriesGo nested fs dst rest
    else
      let path := goJoin dst e.name
      if isPfx (goClean dst ++ [sep]) (goClean path) then
        if e.isDir then
          match fs.mkdirAll path with
          | none => (some (ExtractErr.mkdirErr path), fs)
          | some fs2 => extractEntriesGo nested fs2 dst rest
        else
          match fs.mkdirAll (goDir path) with
          | none => (some (ExtractErr.mkdirErr (goDir path)), fs)
          | some fs2 =>
            match fs2.createFile path e.content with
            | none => (some (ExtractErr.createFileErr path), fs2)
            | some fs3 =>
              if isSfx zipSuffix e.name then
                match nested fs3 path (goDir path) with
                | (some err, fsN) => (some err, fsN)
                | (none, fsN) =>
                  match fsN.removeFile path with
                  | none => (some (ExtractErr.removeErr path), fsN)
                  | some fsR => extractEntriesGo nested fsR dst rest
              else extractEntriesGo nested fs3 dst rest
      else (some (ExtractErr.illegalPath e.name), fs)

/-- `extractZipFiles` (src/main.go lines 51-122): ensure the destination
exists, open the archive, then run the entry loop.  `fuel` bounds the
nesting depth of the self-recursion on nested archives (the Go original
recurses on the call stack without a bound). -/
def extractZipFiles : Nat → FS → GoStr → GoStr → Option ExtractErr × FS
  | 0, fs, _, _ => (some ExtractErr.outOfFuel, fs)
  | fuel + 1, fs, zipFilePath, extractPath =>
    match fs.mkdirAll extractPath with
    | none => (some (ExtractErr.mkdirErr extractPath), fs)
    | some fs1 =>
      match fs1.openZip zipFilePath with
      | none => (some (ExtractErr.archiveOpenErr zipFilePath), fs1)
      | some entries => extractEntriesGo (extractZipFiles fuel) fs1 extractPath entries

/-- The entry loop at nesting budget `fuel`. -/
def extractEntries (fuel : Nat) (fs : FS) (dst : GoStr) (es : List ZEntry) :
    Option ExtractErr × FS :=
  extractEntriesGo (extractZipFiles fuel) fs dst es

example :
    extractZipFiles 1
      ⟨[("z".toList, Content.zipData
          [ZEntry.mk "a.txt".toList false 420 (Content.bytes "hi".toList)])], []⟩
      "z".toList "d".toList =
    (none,
      ⟨[("d/a.txt".toList, Content.bytes "hi".toList),
        ("z".toList, Content.zipData
          [ZEntry.mk "a.txt".toList false 420 (Content.bytes "hi".toList)])],
       ["d".toList]⟩) := rfl

example :
    (extractZipFiles 1
      ⟨[("z".toList, Content.zipData
          [ZEntry.mk "../evil".toList false 420 (Content.bytes "x".toList)])], []⟩
      "z".toList "d".toList).1 =
    some (ExtractErr.illegalPath "../evil".toList) := rfl

example :
    (extractZipFiles 2
      ⟨[("z".toList, Content.zipData
          [ZEntry.mk "inner.zip".toList false 420 (Content.zipData
            [ZEntry.mk "b.txt".toList false 420 (Content.bytes "y".toList)])])], []⟩
      "z".toList "d".toList).2.files =
    [("d/b.txt".toList, Content.bytes "y".toList),
     ("z".toList, Content.zipData
        [ZEntry.mk "inner.zip".toList false 420 (Content.zipData
          [ZEntry.mk "b.txt".toList false 420 (Content.bytes "y".toList)])])] := rfl

theorem mkdirAll_files {fs fs2 : FS} {p : GoStr} (h : fs.mkdirAll p = some fs2) :
    fs2.files = fs.files := by
  unfold FS.mkdirAll at h
  split at h
  · exact absurd h (by simp)
  · injection h with h'
    rw [← h']

theorem mkdirAll_dirs_mem {fs fs2 : FS} {p : GoStr} (h : fs.mkdirAll p = some fs2) :
    ∀ q ∈ mkdirPaths p, q ∈ fs2.dirs := by
  unfold FS.mkdirAll at h
  split at h
  · exact absurd h (by simp)
  · injection h with h'
    rw [← h']
    have hgen : ∀ (ps : List GoStr) (d : List GoStr),
        (∀ q ∈ d, q ∈ ps.foldl (fun d q => if q ∈ d then d else d ++ [q]) d) ∧
        (∀ q ∈ ps, q ∈ ps.foldl (fun d q => if q ∈ d then d else d ++ [q]) d) := by
      intro ps
      induction ps with
      | nil => exact fun d => ⟨fun q hq => hq, fun q hq => by simp at hq⟩
      | cons x xs ih =>
        intro d
        constructor
        · intro q hq
          simp only [List.foldl_cons]
          by_cases hx : x ∈ d
          · rw [if_pos hx]
            exact (ih d).1 q hq
          · rw [if_neg hx]
            exact (ih (d ++ [x])).1 q (List.mem_append_left _ hq)
        · intro q hq
          simp only [List.foldl_cons]
          rcases List.mem_cons.mp hq with rfl | hm
          · by_cases hx : q ∈ d
            · rw [if_pos hx]
              exact (ih d).1 q hx
            · rw [if_neg hx]
              exact (ih (d ++ [q])).1 q (List.mem_append_right _ (by simp))
          · by_cases hx : x ∈ d
            · rw [if_pos hx]
              exact (ih d).2 q hm
            · rw [if_neg hx]
              exact (ih (d ++ [x])).2 q hm
    exact (hgen (mkdirPaths p) fs.dirs).2

theorem createFile_eq {fs fs3 : FS} {p : GoStr} {c : Content}
    (h : fs.createFile p c = some fs3) :
    fs3.files = (p, c) :: fs.files.filter (fun q => ¬(q.1 = p)) ∧ fs3.dirs = fs.dirs := by
  unfold FS.createFile at h
  split at h
  · exact absurd h (by simp)
  · injection h with h'
    rw [← h']
    exact ⟨rfl, rfl⟩

theorem removeFile_sub {fs fsR : FS} {p : GoStr} (h : fs.removeFile p = some fsR) :
    ∀ pc ∈ fsR.files, pc ∈ fs.files := by
  unfold FS.removeFile at h
  split at h
  · injection h with h'
    rw [← h']
    intro pc hpc
    exact List.mem_of_mem_filter hpc
  · exact absurd h (by simp)

/-- Run the entry loop over an appended list: process the first part,
and continue with the second only on success. -/
theorem extractEntriesGo_append (nested : FS → GoStr → GoStr → Option ExtractErr × FS)
    (dst : GoStr) :
    ∀ (xs ys : List ZEntry) (fs : FS),
      extractEntriesGo nested fs dst (xs ++ ys) =
        match extractEntriesGo nested fs dst xs with
        | (none, fs1) => extractEntriesGo nested fs1 dst ys
        | (some err, fs1) => (some err, fs1) := by
  intro xs
  induction xs with
  | nil => intro ys fs; rfl
  | cons e rest ih =>
    intro ys fs
    rw [List.cons_append]
    show extractEntriesGo nested fs dst (e :: (rest ++ ys)) = _
    by_cases hskip : isPfx macosxPfx e.name = true
    · rw [show extractEntriesGo nested fs dst (e :: (rest ++ ys)) =
          extractEntriesGo nested fs dst (rest ++ ys) by
            simp [extractEntriesGo, hskip],
        show extractEntriesGo nested fs dst (e :: rest) =
          extractEntriesGo nested fs dst rest by simp [extractEntriesGo, hskip]]
      exact ih ys fs
    · by_cases hchk : isPfx (goClean dst ++ [sep]) (goClean (goJoin dst e.name)) = true
      · by_cases hdir : e.isDir = true
        · cases hmk : fs.mkdirAll (goJoin dst e.name) with
          | none =>
            rw [show extractEntriesGo nested fs dst (e :: (rest ++ ys)) =
                (some (ExtractErr.mkdirErr (goJoin dst e.name)), fs) by
                  simp [extractEntriesGo, hskip, hchk, hdir, hmk],
              show extractEntriesGo nested fs dst (e :: rest) =
                (some (ExtractErr.mkdirErr (goJoin dst e.name)), fs) by
                  simp [extractEntriesGo, hskip, hchk, hdir, hmk]]
          | some fs2 =>
            rw [show extractEntriesGo nested fs dst (e :: (rest ++ ys)) =
                extractEntriesGo nested fs2 dst (rest ++ ys) by
                  simp [extractEntriesGo, hskip, hchk, hdir, hmk],
              show extractEntriesGo nested fs dst (e :: rest) =
                extractEntriesGo nested fs2 dst rest by
                  simp [extractEntriesGo, hskip, hchk, hdir, hmk]]
            exact ih ys fs2
        · cases hmk : fs.mkdirAll (goDir (goJoin dst e.name)) with
          | none =>
            rw [show extractEntriesGo nested fs dst (e :: (rest ++ ys)) =
                (some (ExtractErr.mkdirErr (goDir (goJoin dst e.name))), fs) by
                  simp [extractEntriesGo, hskip, hchk, hdir, hmk],
              show extractEntriesGo nested fs dst (e :: rest) =
                (some (ExtractErr.mkdirErr (goDir (goJoin dst e.name))), fs) by
                  simp [extractEntriesGo, hskip, hchk, hdir, hmk]]
          | some fs2 =>
            cases hcr : fs2.createFile (goJoin dst e.name) e.content with
            | none =>
              rw [show extractEntriesGo nested fs dst (e :: (rest ++ ys)) =
                  (some (ExtractErr.createFileErr (goJoin dst e.name)), fs2) by
                    simp [extractEntriesGo, hskip, hchk, hdir, hmk, hcr],
                show extractEntriesGo nested fs dst (e :: rest) =
                  (some (ExtractErr.createFileErr (goJoin dst e.name)), fs2) by
                    simp [extractEntriesGo, hskip, hchk, hdir, hmk, hcr]]
            | some fs3 =>
              by_cases hzip : isSfx zipSuffix e.name = true
              · cases hnest : nested fs3 (goJoin dst e.name) (goDir (goJoin dst e.name)) with
                | mk r2 fsN =>
                  cases r2 with
                  | some err =>
                    rw [show extractEntriesGo nested fs dst (e :: (rest ++ ys)) =
                        (some err, fsN) by
                          simp [extractEntriesGo, hskip, hchk, hdir, hmk, hcr, hzip, hnest],
                      show extractEntriesGo nested fs dst (e :: rest) = (some err, fsN) by
                        simp [extractEntriesGo, hskip, hchk, hdir, hmk, hcr, hzip, hnest]]
                  | none =>
                    cases hrm : fsN.removeFile (goJoin dst e.name) with
                    | none =>
                      rw [show extractEntriesGo nested fs dst (e :: (rest ++ ys)) =
                          (some (ExtractErr.removeErr (goJoin dst e.name)), fsN) by
                            simp [extractEntriesGo, hskip, hchk, hdir, hmk, hcr, hzip,
                              hnest, hrm],
                        show extractEntriesGo nested fs dst (e :: rest) =
                          (some (ExtractErr.removeErr (goJoin dst e.name)), fsN) by
                            simp [extractEntriesGo, hskip, hchk, hdir, hmk, hcr, hzip,
                              hnest, hrm]]
                    | some fsR =>
                      rw [show extractEntriesGo nested fs dst (e :: (rest ++ ys)) =
                          extractEntriesGo nested fsR dst (rest ++ ys) by
                            simp [extractEntriesGo, hskip, hchk, hdir, hmk, hcr, hzip,
                              hnest, hrm],
                        show extractEntriesGo nested fs dst (e :: rest) =
                          extractEntriesGo nested fsR dst rest by
                            simp [extractEntriesGo, hskip, hchk, hdir, hmk, hcr, hzip,
                              hnest, hrm]]
                      exact ih ys fsR
              · rw [show extractEntriesGo nested fs dst (e :: (rest ++ ys)) =
                    extractEntriesGo nested fs3 dst (rest ++ ys) by
                      simp [extractEntriesGo, hskip, hchk, hdir, hmk, hcr, hzip],
                  show extractEntriesGo nested fs dst (e :: rest) =
                    extractEntriesGo nested fs3 dst rest by
                      simp [extractEntriesGo, hskip, hchk, hdir, hmk, hcr, hzip]]
                exact ih ys fs3
      · rw [show extractEntriesGo nested fs dst (e :: (rest ++ ys)) =
            (some (ExtractErr.illegalPath e.name), fs) by
              simp [extractEntriesGo, hskip, hchk],
          show extractEntriesGo nested fs dst (e :: rest) =
            (some (ExtractErr.illegalPath e.name), fs) by
              simp [extractEntriesGo, hskip, hchk]]

/-- Every file present after the entry loop was either already present
or lies strictly inside the extraction root (after cleaning), provided
the nested-archive recursion has the same property for its own root. -/
theorem extractEntriesGo_inside
    (nested : FS → GoStr → GoStr → Option ExtractErr × FS)
    (hnested : ∀ fs zp dst2 r fs', nested fs zp dst2 = (r, fs') →
      ∀ pc ∈ fs'.files, pc ∈ fs.files ∨
        isPfx (goClean dst2 ++ [sep]) (goClean pc.1) = true) :
    ∀ (es : List ZEntry) (fs : FS) (dst : GoStr) (r : Option ExtractErr) (fs' : FS),
      extractEntriesGo nested fs dst es = (r, fs') →
      ∀ pc ∈ fs'.files, pc ∈ fs.files ∨
        isPfx (goClean dst ++ [sep]) (goClean pc.1) = true := by
  intro es
  induction es with
  | nil =>
    intro fs dst r fs' h pc hpc
    simp only [extractEntriesGo] at h
    injection h with _ h2
    rw [← h2] at hpc
    exact Or.inl hpc
  | cons e rest ih =>
    intro fs dst r fs' h pc hpc
    by_cases hskip : isPfx macosxPfx e.name = true
    · rw [show extractEntriesGo nested fs dst (e :: rest) =
          extractEntriesGo nested fs dst rest by simp [extractEntriesGo, hskip]] at h
      exact ih fs dst r fs' h pc hpc
    · by_cases hchk : isPfx (goClean dst ++ [sep]) (goClean (goJoin dst e.name)) = true
      · by_cases hdir : e.isDir = true
        · cases hmk : fs.mkdirAll (goJoin dst e.name) with
          | none =>
            rw [show extractEntriesGo nested fs dst (e :: rest) =
                (some (ExtractErr.mkdirErr (goJoin dst e.name)), fs) by
                  simp [extractEntriesGo, hskip, hchk, hdir, hmk]] at h
            injection h with _ h2
            rw [← h2] at hpc
            exact Or.inl hpc
          | some fs2 =>
            rw [show extractEntriesGo nested fs dst (e :: rest) =
                extractEntriesGo nested fs2 dst rest by
                  simp [extractEntriesGo, hskip, hchk, hdir, hmk]] at h
            have hres := ih fs2 dst r fs' h pc hpc
            rw [mkdirAll_files hmk] at hres
            exact hres
        · cases hmk : fs.mkdirAll (goDir (goJoin dst e.name)) with
          | none =>
            rw [show extractEntriesGo nested fs dst (e :: rest) =
                (some (ExtractErr.mkdirErr (goDir (goJoin dst e.name))), fs) by
                  simp [extractEntriesGo, hskip, hchk, hdir, hmk]] at h
            injection h with _ h2
            rw [← h2] at hpc
            exact Or.inl hpc
          | some fs2 =>
            cases hcr : fs2.createFile (goJoin dst e.name) e.content with
            | none =>
              rw [show extractEntriesGo nested fs dst (e :: rest) =
                  (some (ExtractErr.createFileErr (goJoin dst e.name)), fs2) by
                    simp [extractEntriesGo, hskip, hchk, hdir, hmk, hcr]] at h
              injection h with _ h2
              rw [← h2, mkdirAll_files hmk] at hpc
              exact Or.inl hpc
            | some fs3 =>
              have hf3 := (createFile_eq hcr).1
              have hmem3 : ∀ q ∈ fs3.files, q ∈ fs.files ∨ q.1 = goJoin dst e.name := by
                intro q hq3
                rw [hf3] at hq3
                rcases List.mem_cons.mp hq3 with rfl | hm
                · exact Or.inr rfl
                · exact Or.inl ((mkdirAll_files hmk) ▸ List.mem_of_mem_filter hm)
              by_cases hzip : isSfx zipSuffix e.name = true
              · cases hnest : nested fs3 (goJoin dst e.name) (goDir (goJoin dst e.name)) with
                | mk r2 fsN =>
                  have hNmem : ∀ q ∈ fsN.files, q ∈ fs.files ∨
                      isPfx (goClean dst ++ [sep]) (goClean q.1) = true := by
                    intro q hqN
                    rcases hnested fs3 _ _ r2 fsN hnest q hqN with hin3 | hinD
                    · rcases hmem3 q hin3 with hin | heq
                      · exact Or.inl hin
                      · exact Or.inr (by rw [heq]; exact hchk)
                    · right
                      have hfix : goClean (goJoin dst e.name) = goJoin dst e.name := by
                        by_cases hboth : dst = [] ∧ e.name = []
                        · exfalso
                          rw [hboth.1, hboth.2] at hchk
                          exact absurd hchk (by decide)
                        · exact goJoin_clean hboth
                      exact inside_goDir_trans hfix hchk hinD
                  cases r2 with
                  | some err =>
                    rw [show extractEntriesGo nested fs dst (e :: rest) = (some err, fsN) by
                        simp [extractEntriesGo, hskip, hchk, hdir, hmk, hcr, hzip,
                          hnest]] at h
                    injection h with _ h2
                    rw [← h2] at hpc
                    exact hNmem pc hpc
                  | none =>
                    cases hrm : fsN.removeFile (goJoin dst e.name) with
                    | none =>
                      rw [show extractEntriesGo nested fs dst (e :: rest) =
                          (some (ExtractErr.removeErr (goJoin dst e.name)), fsN) by
                            simp [extractEntriesGo, hskip, hchk, hdir, hmk, hcr, hzip,
                              hnest, hrm]] at h
                      injection h with _ h2
                      rw [← h2] at hpc
                      exact hNmem pc hpc
                    | some fsR =>
                      rw [show extractEntriesGo nested fs dst (e :: rest) =
                          extractEntriesGo nested fsR dst rest by
                            simp [extractEntriesGo, hskip, hchk, hdir, hmk, hcr, hzip,
                              hnest, hrm]] at h
                      rcases ih fsR dst r fs' h pc hpc with hin | hins
                      · exact hNmem pc (removeFile_sub hrm pc hin)
                      · exact Or.inr hins
              · rw [show extractEntriesGo nested fs dst (e :: rest) =
                    extractEntriesGo nested fs3 dst rest by
                      simp [extractEntriesGo, hskip, hchk, hdir, hmk, hcr, hzip]] at h
                rcases ih fs3 dst r fs' h pc hpc with hin | hins
                · rcases hmem3 pc hin with hin2 | heq
                  · exact Or.inl hin2
                  · exact Or.inr (by rw [heq]; exact hchk)
                · exact Or.inr hins
      · rw [show extractEntriesGo nested fs dst (e :: rest) =
            (some (ExtractErr.illegalPath e.name), fs) by
              simp [extractEntriesGo, hskip, hchk]] at h
        injection h with _ h2
        rw [← h2] at hpc
        exact Or.inl hpc

/-- Every file present after `extractZipFiles` was either already
present or lies strictly inside the extraction root (after cleaning). -/
theorem extractZipFiles_inside :
    ∀ (fuel : Nat) (fs : FS) (zp dst : GoStr) (r : Option ExtractErr) (fs' : FS),
      extractZipFiles fuel fs zp dst = (r, fs') →
      ∀ pc ∈ fs'.files, pc ∈ fs.files ∨
        isPfx (goClean dst ++ [sep]) (goClean pc.1) = true := by
  intro fuel
  induction fuel with
  | zero =>
    intro fs zp dst r fs' h pc hpc
    simp only [extractZipFiles] at h
    injection h with _ h2
    rw [← h2] at hpc
    exact Or.inl hpc
  | succ fuel ih =>
    intro fs zp dst r fs' h pc hpc
    cases hmk : fs.mkdirAll dst with
    | none =>
      rw [show extractZipFiles (fuel + 1) fs zp dst = (some (ExtractErr.mkdirErr dst), fs) by
          simp [extractZipFiles, hmk]] at h
      injection h with _ h2
      rw [← h2] at hpc
      exact Or.inl hpc
    | some fs1 =>
      cases hop : fs1.openZip zp with
      | none =>
        rw [show extractZipFiles (fuel + 1) fs zp dst =
            (some (ExtractErr.archiveOpenErr zp), fs1) by
              simp [extractZipFiles, hmk, hop]] at h
        injection h with _ h2
        rw [← h2, mkdirAll_files hmk] at hpc
        exact Or.inl hpc
      | some entries =>
        rw [show extractZipFiles (fuel + 1) fs zp dst =
            extractEntriesGo (extractZipFiles fuel) fs1 dst entries by
              simp [extractZipFiles, hmk, hop]] at h
        rcases extractEntriesGo_inside (extractZipFiles fuel) ih entries fs1 dst r fs' h
            pc hpc with hin | hins
        · rw [mkdirAll_files hmk] at hin
          exact Or.inl hin
        · exact Or.inr hins

/-! ## Directory tree model (`buildTree`, src/main.go lines 25-49) -/

/-- A filesystem node as listed by `os.ReadDir`: a regular file, or a
directory with named children in enumeration order; `listable = false`
models a directory whose listing fails (permission denied). -/
inductive FNode where
  | file : FNode
  | dir (listable : Bool) (children : List (GoStr × FNode)) : FNode

def FNode.isDirNode : FNode → Bool
  | .file => false
  | .dir _ _ => true

/-- `TreeNode` (src/main.go lines 20-23). -/
structure TreeNode where
  name : GoStr
  children : List TreeNode

/-- `"__MACOSX"`, the sentinel directory name skipped by `buildTree`. -/
def macosxName : GoStr := "__MACOSX".toList

mutual
/-- `buildTree(rootPath)`: list the directory (failing when it cannot be
listed), then recurse into sub-directories other than `__MACOSX`,
ignoring regular files. -/
def buildTree (rootPath : GoStr) : FNode → Except GoStr TreeNode
  | .file => .error rootPath
  | .dir false _ => .error rootPath
  | .dir true cs =>
    match buildChildren rootPath cs with
    | .error e => .error e
    | .ok ts => .ok ⟨rootPath, ts⟩

/-- The loop body of `buildTree` over the listed entries, in order. -/
def buildChildren (rootPath : GoStr) : List (GoStr × FNode) → Except GoStr (List TreeNode)
  | [] => .ok []
  | (n, c) :: rest =>
    if c.isDirNode then
      if n = macosxName then buildChildren rootPath rest
      else
        match buildTree (goJoin rootPath n) c with
        | .error e => .error e
        | .ok t =>
          match buildChildren rootPath rest with
          | .error e => .error e
          | .ok ts => .ok (t :: ts)
    else buildChildren rootPath rest
end

example :
    buildTree "root".toList
      (FNode.dir true
        [("a".toList, FNode.dir true [("b".toList, FNode.dir true [])]),
         ("f.txt".toList, FNode.file),
         ("__MACOSX".toList, FNode.dir true [("junk".toList, FNode.dir true [])]),
         ("c".toList, FNode.dir true [])]) =
    Except.ok
      ⟨"root".toList,
        [⟨"root/a".toList, [⟨"root/a/b".toList, []⟩]⟩,
         ⟨"root/c".toList, []⟩]⟩ := rfl

example :
    buildTree "root".toList
      (FNode.dir true [("a".toList, FNode.dir false [])]) =
    Except.error "root/a".toList := rfl

mutual
/-- Whether `buildTree` would fail on this node: the node itself cannot
be listed, or some recursively visited sub-directory fails. -/
def visitFails : FNode → Bool
  | .file => true
  | .dir false _ => true
  | .dir true cs => childFails cs

def childFails : List (GoStr × FNode) → Bool
  | [] => false
  | (n, c) :: rest =>
    (c.isDirNode && (if n = macosxName then false else visitFails c)) || childFails rest
end

mutual
theorem buildTree_ok_iff (rootPath : GoStr) (n : FNode) :
    (∃ t, buildTree rootPath n = .ok t) ↔ visitFails n = false := by
  cases n with
  | file => simp [buildTree, visitFails]
  | dir b cs =>
    cases b with
    | false => simp [buildTree, visitFails]
    | true =>
      have hch := buildChildren_ok_iff rootPath cs
      cases hbc : buildChildren rootPath cs with
      | error e =>
        have hcf : childFails cs = true := by
          cases hv : childFails cs with
          | false =>
            obtain ⟨ts, hts⟩ := hch.2 hv
            rw [hts] at hbc
            exact absurd hbc (by simp)
          | true => rfl
        simp [buildTree, hbc, visitFails, hcf]
      | ok ts =>
        have hcf : childFails cs = false := hch.1 ⟨ts, hbc⟩
        simp [buildTree, hbc, visitFails, hcf]

theorem buildChildren_ok_iff (rootPath : GoStr) (cs : List (GoStr × FNode)) :
    (∃ ts, buildChildren rootPath cs = .ok ts) ↔ childFails cs = false := by
  cases cs with
  | nil => simp [buildChildren, childFails]
  | cons nc rest =>
    obtain ⟨n, c⟩ := nc
    by_cases hd : c.isDirNode = true
    · by_cases hm : n = macosxName
      · have hrest := buildChildren_ok_iff rootPath rest
        rw [show buildChildren rootPath ((n, c) :: rest) = buildChildren rootPath rest by
            simp [buildChildren, hd, hm],
          show childFails ((n, c) :: rest) = childFails rest by
            simp [childFails, hd, hm]]
        exact hrest
      · have hsub := buildTree_ok_iff (goJoin rootPath n) c
        have hrest := buildChildren_ok_iff rootPath rest
        cases hbt : buildTree (goJoin rootPath n) c with
        | error e =>
          have hvf : visitFails c = true := by
            cases hv : visitFails c with
            | false =>
              obtain ⟨t, ht⟩ := hsub.2 hv
              rw [ht] at hbt
              exact absurd hbt (by simp)
            | true => rfl
          rw [show buildChildren rootPath ((n, c) :: rest) = .error e by
              simp [buildChildren, hd, hm, hbt],
            show childFails ((n, c) :: rest) = true by
              simp [childFails, hd, hm, hvf]]
          simp
        | ok t =>
          have hvf : visitFails c = false := hsub.1 ⟨t, hbt⟩
          rw [show childFails ((n, c) :: rest) = childFails rest by
              simp [childFails, hd, hm, hvf]]
          cases hbc : buildChildren rootPath rest with
          | error e =>
            have hcf : childFails rest = true := by
              cases hv : childFails rest with
              | false =>
                obtain ⟨ts, hts⟩ := hrest.2 hv
                rw [hts] at hbc
                exact absurd hbc (by simp)
              | true => rfl
            rw [show buildChildren rootPath ((n, c) :: rest) = .error e by
                simp [buildChildren, hd, hm, hbt, hbc], hcf]
            simp
          | ok ts =>
            have hcf : childFails rest = false := hrest.1 ⟨ts, hbc⟩
            rw [show buildChildren rootPath ((n, c) :: rest) = .ok (t :: ts) by
                simp [buildChildren, hd, hm, hbt, hbc], hcf]
            simp
    · rw [show buildChildren rootPath ((n, c) :: rest) = buildChildren rootPath rest by
          simp [buildChildren, hd],
        show childFails ((n, c) :: rest) = childFails rest by simp [childFails, hd]]
      exact buildChildren_ok_iff rootPath rest
end

mutual
theorem buildTree_ok_shape {rootPath : GoStr} {b : Bool} {cs : List (GoStr × FNode)}
    {t : TreeNode} (h : buildTree rootPath (.dir b cs) = .ok t) :
    t.name = rootPath ∧
      t.children.map TreeNode.name =
        (cs.filter (fun nc => nc.2.isDirNode && decide (nc.1 ≠ macosxName))).map
          (fun nc => goJoin rootPath nc.1) := by
  cases b with
  | false => exact absurd h (by simp [buildTree])
  | true =>
    cases hbc : buildChildren rootPath cs with
    | error e =>
      rw [show buildTree rootPath (.dir true cs) = .error e by
        simp [buildTree, hbc]] at h
      exact absurd h (by simp)
    | ok ts =>
      rw [show buildTree rootPath (.dir true cs) = .ok ⟨rootPath, ts⟩ by
        simp [buildTree, hbc]] at h
      injection h with h'
      rw [← h']
      exact ⟨rfl, buildChildren_ok_shape hbc⟩

theorem buildChildren_ok_shape {rootPath : GoStr} {cs : List (GoStr × FNode)}
    {ts : List TreeNode} (h : buildChildren rootPath cs = .ok ts) :
    ts.map TreeNode.name =
      (cs.filter (fun nc => nc.2.isDirNode && decide (nc.1 ≠ macosxName))).map
        (fun nc => goJoin rootPath nc.1) := by
  cases cs with
  | nil =>
    rw [show buildChildren rootPath [] = Except.ok ([] : List TreeNode) from rfl] at h
    injection h with h'
    rw [← h']
    rfl
  | cons nc rest =>
    obtain ⟨n, c⟩ := nc
    by_cases hd : c.isDirNode = true
    · by_cases hm : n = macosxName
      · rw [show buildChildren rootPath ((n, c) :: rest) = buildChildren rootPath rest by
            simp [buildChildren, hd, hm]] at h
        rw [show List.filter (fun nc => nc.2.isDirNode && decide (nc.1 ≠ macosxName))
              ((n, c) :: rest) =
            List.filter (fun nc => nc.2.isDirNode && decide (nc.1 ≠ macosxName)) rest by
          simp [List.filter, hm]]
        exact buildChildren_ok_shape h
      · cases hbt : buildTree (goJoin rootPath n) c with
        | error e =>
          rw [show buildChildren rootPath ((n, c) :: rest) = .error e by
            simp [buildChildren, hd, hm, hbt]] at h
          exact absurd h (by simp)
        | ok t =>
          cases hbc : buildChildren rootPath rest with
          | error e =>
            rw [show buildChildren rootPath ((n, c) :: rest) = .error e by
              simp [buildChildren, hd, hm, hbt, hbc]] at h
            exact absurd h (by simp)
          | ok ts2 =>
            rw [show buildChildren rootPath ((n, c) :: rest) = .ok (t :: ts2) by
              simp [buildChildren, hd, hm, hbt, hbc]] at h
            injection h with h'
            rw [← h']
            have hname : t.name = goJoin rootPath n := by
              cases c with
              | file => exact absurd hbt (by simp [buildTree])
              | dir b2 cs2 => exact (buildTree_ok_shape hbt).1
            rw [show List.filter (fun nc => nc.2.isDirNode && decide (nc.1 ≠ macosxName))
                  ((n, c) :: rest) =
                (n, c) :: List.filter (fun nc => nc.2.isDirNode && decide (nc.1 ≠ macosxName))
                  rest by simp [List.filter, hd, hm]]
            rw [List.map_cons, List.map_cons, hname]
            rw [buildChildren_ok_shape hbc]
    · rw [show buildChildren rootPath ((n, c) :: rest) = buildChildren rootPath rest by
          simp [buildChildren, hd]] at h
      rw [show List.filter (fun nc => nc.2.isDirNode && decide (nc.1 ≠ macosxName))
            ((n, c) :: rest) =
          List.filter (fun nc => nc.2.isDirNode && decide (nc.1 ≠ macosxName)) rest by
        simp [List.filter, hd]]
      exact buildChildren_ok_shape h
end

mutual
/-- Remove every `__MACOSX` sub-directory, recursively. -/
def pruneMac : FNode → FNode
  | .file => .file
  | .dir b cs => .dir b (pruneChildren cs)

def pruneChildren : List (GoStr × FNode) → List (GoStr × FNode)
  | [] => []
  | (n, c) :: rest =>
    if c.isDirNode ∧ n = macosxName then pruneChildren rest
    else (n, pruneMac c) :: pruneChildren rest
end

theorem pruneMac_isDirNode (c : FNode) : (pruneMac c).isDirNode = c.isDirNode := by
  cases c <;> rfl

mutual
theorem buildTree_prune (rootPath : GoStr) (n : FNode) :
    buildTree rootPath (pruneMac n) = buildTree rootPath n := by
  cases n with
  | file => rfl
  | dir b cs =>
    cases b with
    | false => rfl
    | true =>
      show (match buildChildren rootPath (pruneChildren cs) with
        | Except.error e => Except.error e
        | Except.ok ts => Except.ok (⟨rootPath, ts⟩ : TreeNode)) = _
      rw [buildChildren_prune rootPath cs]
      rfl

theorem buildChildren_prune (rootPath : GoStr) (cs : List (GoStr × FNode)) :
    buildChildren rootPath (pruneChildren cs) = buildChildren rootPath cs := by
  cases cs with
  | nil => rfl
  | cons nc rest =>
    obtain ⟨n, c⟩ := nc
    by_cases hskip : c.isDirNode = true ∧ n = macosxName
    · rw [show pruneChildren ((n, c) :: rest) = pruneChildren rest by
          simp [pruneChildren, hskip.1, hskip.2],
        buildChildren_prune rootPath rest,
        show buildChildren rootPath ((n, c) :: rest) = buildChildren rootPath rest by
          simp [buildChildren, hskip.1, hskip.2]]
    · rw [show pruneChildren ((n, c) :: rest) = (n, pruneMac c) :: pruneChildren rest by
          simp only [pruneChildren]
          rw [if_neg (by exact fun hc => hskip ⟨hc.1, hc.2⟩)]]
      by_cases hd : c.isDirNode = true
      · have hm : ¬(n = macosxName) := fun hn => hskip ⟨hd, hn⟩
        rw [show buildChildren rootPath ((n, pruneMac c) :: pruneChildren rest) =
            (match buildTree (goJoin rootPath n) (pruneMac c) with
             | Except.error e => Except.error e
             | Except.ok t =>
               match buildChildren rootPath (pruneChildren rest) with
               | Except.error e => Except.error e
               | Except.ok ts => Except.ok (t :: ts)) by
              simp [buildChildren, pruneMac_isDirNode, hd, hm],
          buildTree_prune (goJoin rootPath n) c, buildChildren_prune rootPath rest,
          show buildChildren rootPath ((n, c) :: rest) =
            (match buildTree (goJoin rootPath n) c with
             | Except.error e => Except.error e
             | Except.ok t =>
               match buildChildren rootPath rest with
               | Except.error e => Except.error e
               | Except.ok ts => Except.ok (t :: ts)) by
              simp [buildChildren, hd, hm]]
      · rw [show buildChildren rootPath ((n, pruneMac c) :: pruneChildren rest) =
            buildChildren rootPath (pruneChildren rest) by
              simp [buildChildren, pruneMac_isDirNode, hd],
          buildChildren_prune rootPath rest,
          show buildChildren rootPath ((n, c) :: rest) = buildChildren rootPath rest by
            simp [buildChildren, hd]]
end

/-! ## Upload walk model (`uploadDirectoryToS3`, src/main.go lines 152-207)

`filepath.Walk` delivers a sequence of items (directories, regular
files, or walk errors) to the callback; the callback's behaviour is
modelled as a fold over that sequence.  The outcome of the object-store
collaborator for each file is an oracle `put`.  The model additionally
records a trace of events: which counter increments happen (and whether
they use `sync/atomic`), which uploads are attempted with which key,
and every progress emission. -/

inductive WItem where
  | dirItem (path : GoStr)
  | fileItem (path : GoStr)
  | errItem (path : GoStr)
deriving DecidableEq

inductive PutOutcome where
  | putOk
  | openFail
  | storeFail (msg : GoStr)
deriving DecidableEq

inductive FileErr where
  | openErr (path : GoStr)
  | putErr (msg : GoStr)
  | walkErr (path : GoStr)
deriving DecidableEq

structure UpState where
  totalFiles : Int
  uploadedFiles : Int
deriving DecidableEq

inductive Counter where
  | total
  | uploaded
deriving DecidableEq

inductive UpEvent where
  | plainInc (c : Counter)
  | atomicInc (c : Counter)
  | attempt (path key : GoStr)
  | emit (uploaded totalFiles : Int) (path : GoStr)
deriving DecidableEq

/-- `uploadFileToS3` (src/main.go lines 133-150): open the local file,
then put.  An open failure surfaces the `os.Open` `*PathError`, which
names the file; a store failure surfaces the collaborator's opaque
error, which does not. -/
def uploadFileToS3 (put : GoStr → PutOutcome) (path : GoStr) : Option FileErr :=
  match put path with
  | .putOk => none
  | .openFail => some (.openErr path)
  | .storeFail m => some (.putErr m)

/-- The object key (src/main.go lines 171-173):
`filepath.Join(prefix, strings.TrimPrefix(path, directoryPath))`. -/
def s3Key (pfx dirPath path : GoStr) : GoStr := goJoin pfx (goTrimPfx path dirPath)

/-- The walk callback of `uploadDirectoryToS3` (lines 159-190), folded
over the walk items: walk errors abort; directories are skipped; for a
regular file `totalFiles++` (a plain increment), then the upload is
attempted, and on success `atomic.AddInt64(&uploadedFiles, 1)` followed
by a progress emission. -/
def uploadWalk (put : GoStr → PutOutcome) (dirPath pfx : GoStr) :
    List WItem → UpState → Option FileErr × UpState × List UpEvent
  | [], st => (none, st, [])
  | .errItem p :: _, st => (some (.walkErr p), st, [])
  | .dirItem _ :: rest, st => uploadWalk put dirPath pfx rest st
  | .fileItem p :: rest, st =>
    let st1 : UpState := { st with totalFiles := st.totalFiles + 1 }
    let key := s3Key pfx dirPath p
    match uploadFileToS3 put p with
    | some e => (some e, st1, [UpEvent.plainInc Counter.total, UpEvent.attempt p key])
    | none =>
      let st2 : UpState := { st1 with uploadedFiles := st1.uploadedFiles + 1 }
      match uploadWalk put dirPath pfx rest st2 with
      | (r, stF, evs) =>
        (r, stF,
          UpEvent.plainInc Counter.total :: UpEvent.attempt p key ::
          UpEvent.atomicInc Counter.uploaded ::
          UpEvent.emit st2.uploadedFiles st2.totalFiles p :: evs)

/-- `uploadDirectoryToS3`: run the walk with both counters at zero. -/
def uploadDirectoryToS3 (put : GoStr → PutOutcome) (dirPath pfx : GoStr)
    (items : List WItem) : Option FileErr × UpState × List UpEvent :=
  uploadWalk put dirPath pfx items ⟨0, 0⟩

/-- `err.Error()` as printed: an `os.Open` failure names the path, the
store's error is the collaborator's message, a walk failure names the
walked path. -/
def renderFileErr : FileErr → GoStr
  | .openErr p => "open ".toList ++ p ++ ": no such file or directory".toList
  | .putErr m => m
  | .walkErr p => "lstat ".toList ++ p ++ ": permission denied".toList

/-- Line 196: `fmt.Printf("Error uploading directory %s: %s\n", directoryPath,
err.Error())`. -/
def reportLine (dirPath : GoStr) (e : FileErr) : GoStr :=
  "Error uploading directory ".toList ++ dirPath ++ ": ".toList ++ renderFileErr e

/-- Line 204: `progress := float64(uploadedFiles) / float64(totalFiles) * 100`
(exact rational value of the computation). -/
def progressPct (uploaded totalFiles : Int) : ℚ :=
  (uploaded : ℚ) / (totalFiles : ℚ) * 100

/-- Replay a counter event on a state. -/
def applyEv (st : UpState) : UpEvent → UpState
  | .plainInc .total => { st with totalFiles := st.totalFiles + 1 }
  | .plainInc .uploaded => { st with uploadedFiles := st.uploadedFiles + 1 }
  | .atomicInc .total => { st with totalFiles := st.totalFiles + 1 }
  | .atomicInc .uploaded => { st with uploadedFiles := st.uploadedFiles + 1 }
  | _ => st

/-- The observed states: the initial state and the state after each
event of the trace. -/
def statesAlong (init : UpState) : List UpEvent → List UpState
  | [] => [init]
  | ev :: rest => init :: statesAlong (applyEv init ev) rest

/-- Both counters non-decreasing along consecutive observation points. -/
def monoStates : List UpState → Bool
  | [] => true
  | [_] => true
  | a :: b :: r =>
    (decide (a.totalFiles ≤ b.totalFiles) && decide (a.uploadedFiles ≤ b.uploadedFiles)) &&
      monoStates (b :: r)

/-- Every `attempt` event is immediately preceded by the plain increment
of `totalFiles`. -/
def incBeforeAttempt : Option UpEvent → List UpEvent → Bool
  | _, [] => true
  | prev, e :: r =>
    (match e with
     | UpEvent.attempt _ _ => prev == some (UpEvent.plainInc Counter.total)
     | _ => true) && incBeforeAttempt (some e) r

/-- The attempted uploads, in order, with their keys. -/
def attemptsOf (evs : List UpEvent) : List (GoStr × GoStr) :=
  evs.filterMap fun e =>
    match e with
    | UpEvent.attempt p k => some (p, k)
    | _ => none

/-- The number of regular files among the walk items. -/
def countFiles (items : List WItem) : Nat :=
  items.countP fun it =>
    match it with
    | WItem.fileItem _ => true
    | _ => false

example :
    uploadDirectoryToS3 (fun _ => PutOutcome.putOk) "/tmp/x".toList "uploads/".toList
      [WItem.dirItem "/tmp/x".toList, WItem.fileItem "/tmp/x/sub/f.txt".toList] =
    (none, ⟨1, 1⟩,
      [UpEvent.plainInc Counter.total,
       UpEvent.attempt "/tmp/x/sub/f.txt".toList "uploads/sub/f.txt".toList,
       UpEvent.atomicInc Counter.uploaded,
       UpEvent.emit 1 1 "/tmp/x/sub/f.txt".toList]) := rfl

example :
    uploadDirectoryToS3 (fun p => if p = "/d/b".toList then PutOutcome.storeFail
        "AccessDenied".toList else PutOutcome.putOk)
      "/d".toList "u/".toList
      [WItem.fileItem "/d/a".toList, WItem.fileItem "/d/b".toList,
       WItem.fileItem "/d/c".toList] =
    (some (FileErr.putErr "AccessDenied".toList), ⟨2, 1⟩,
      [UpEvent.plainInc Counter.total, UpEvent.attempt "/d/a".toList "u/a".toList,
       UpEvent.atomicInc Counter.uploaded, UpEvent.emit 1 1 "/d/a".toList,
       UpEvent.plainInc Counter.total, UpEvent.attempt "/d/b".toList "u/b".toList]) := rfl

theorem countFiles_cons_file (p : GoStr) (rest : List WItem) :
    countFiles (WItem.fileItem p :: rest) = countFiles rest + 1 := by
  simp [countFiles, List.countP_cons]

theorem countFiles_cons_dir (p : GoStr) (rest : List WItem) :
    countFiles (WItem.dirItem p :: rest) = countFiles rest := by
  simp [countFiles, List.countP_cons]

/-- On success both counters have advanced by the number of regular
files walked. -/
theorem uploadWalk_counts (put : GoStr → PutOutcome) (dirPath pfx : GoStr) :
    ∀ (items : List WItem) (st : UpState),
      (uploadWalk put dirPath pfx items st).1 = none →
        (uploadWalk put dirPath pfx items st).2.1.uploadedFiles =
          st.uploadedFiles + countFiles items ∧
        (uploadWalk put dirPath pfx items st).2.1.totalFiles =
          st.totalFiles + countFiles items := by
  intro items
  induction items with
  | nil => intro st _; constructor <;> simp [uploadWalk, countFiles]
  | cons it rest ih =>
    intro st hok
    cases it with
    | errItem p => simp [uploadWalk] at hok
    | dirItem p =>
      rw [show uploadWalk put dirPath pfx (WItem.dirItem p :: rest) st =
          uploadWalk put dirPath pfx rest st from rfl] at hok ⊢
      rw [countFiles_cons_dir]
      exact ih st hok
    | fileItem p =>
      cases hup : uploadFileToS3 put p with
      | some e =>
        rw [show uploadWalk put dirPath pfx (WItem.fileItem p :: rest) st =
            (some e, { st with totalFiles := st.totalFiles + 1 },
              [UpEvent.plainInc Counter.total,
               UpEvent.attempt p (s3Key pfx dirPath p)]) by
          simp [uploadWalk, hup]] at hok
        simp at hok
      | none =>
        cases hrec : uploadWalk put dirPath pfx rest
            ⟨st.totalFiles + 1, st.uploadedFiles + 1⟩ with
        | mk r q =>
          cases q with
          | mk stF evs =>
            rw [show uploadWalk put dirPath pfx (WItem.fileItem p :: rest) st =
                (r, stF,
                  UpEvent.plainInc Counter.total ::
                  UpEvent.attempt p (s3Key pfx dirPath p) ::
                  UpEvent.atomicInc Counter.uploaded ::
                  UpEvent.emit (st.uploadedFiles + 1) (st.totalFiles + 1) p :: evs) by
              simp [uploadWalk, hup, hrec]] at hok ⊢
            simp only at hok
            obtain ⟨h1, h2⟩ := ih ⟨st.totalFiles + 1, st.uploadedFiles + 1⟩ (by rw [hrec]; exact hok)
            rw [hrec] at h1 h2
            simp only at h1 h2
            rw [countFiles_cons_file]
            constructor
            · simp only
              rw [h1]
              push_cast
              ring
            · simp only
              rw [h2]
              push_cast
              ring

theorem upst_total (a b : Int) : (UpState.mk a b).totalFiles = a := rfl

theorem upst_up (a b : Int) : (UpState.mk a b).uploadedFiles = b := rfl

/-- Counters are non-decreasing along the observation points, and
`uploadedFiles ≤ totalFiles` holds at every observation point. -/
theorem uploadWalk_states (put : GoStr → PutOutcome) (dirPath pfx : GoStr) :
    ∀ (items : List WItem) (st : UpState),
      monoStates (statesAlong st (uploadWalk put dirPath pfx items st).2.2) = true ∧
      (st.uploadedFiles ≤ st.totalFiles →
        ∀ s ∈ statesAlong st (uploadWalk put dirPath pfx items st).2.2,
          s.uploadedFiles ≤ s.totalFiles) := by
  intro items
  induction items with
  | nil =>
    intro st
    constructor
    · rfl
    · intro hb s hs
      simp only [uploadWalk, statesAlong, List.mem_singleton] at hs
      rw [hs]
      exact hb
  | cons it rest ih =>
    intro st
    cases it with
    | errItem p =>
      constructor
      · rfl
      · intro hb s hs
        simp only [uploadWalk, statesAlong, List.mem_singleton] at hs
        rw [hs]
        exact hb
    | dirItem p =>
      exact ih st
    | fileItem p =>
      cases hup : uploadFileToS3 put p with
      | some e =>
        rw [show (uploadWalk put dirPath pfx (WItem.fileItem p :: rest) st).2.2 =
            [UpEvent.plainInc Counter.total, UpEvent.attempt p (s3Key pfx dirPath p)] by
          simp [uploadWalk, hup]]
        constructor
        · simp [statesAlong, applyEv, monoStates]
          try omega
        · intro hb s hs
          simp only [statesAlong, applyEv, List.mem_cons, List.not_mem_nil, or_false] at hs
          rcases hs with rfl | rfl | rfl
          · exact hb
          · simp
            omega
          · simp
            omega
      | none =>
        cases hrec : uploadWalk put dirPath pfx rest
            ⟨st.totalFiles + 1, st.uploadedFiles + 1⟩ with
        | mk r q =>
          cases q with
          | mk stF evs =>
            rw [show (uploadWalk put dirPath pfx (WItem.fileItem p :: rest) st).2.2 =
                UpEvent.plainInc Counter.total ::
                UpEvent.attempt p (s3Key pfx dirPath p) ::
                UpEvent.atomicInc Counter.uploaded ::
                UpEvent.emit (st.uploadedFiles + 1) (st.totalFiles + 1) p :: evs by
              simp [uploadWalk, hup, hrec]]
            have hihevs := ih ⟨st.totalFiles + 1, st.uploadedFiles + 1⟩
            rw [hrec] at hihevs
            simp only at hihevs
            constructor
            · have hmono := hihevs.1
              cases hsa : statesAlong ⟨st.totalFiles + 1, st.uploadedFiles + 1⟩ evs with
              | nil =>
                exfalso
                cases evs <;> simp [statesAlong] at hsa
              | cons s0 srest =>
                rw [hsa] at hmono
                have hs0 : s0 = ⟨st.totalFiles + 1, st.uploadedFiles + 1⟩ := by
                  cases evs with
                  | nil =>
                    simp only [statesAlong] at hsa
                    injection hsa with h1 _
                    exact h1.symm
                  | cons e2 r2 =>
                    simp only [statesAlong] at hsa
                    injection hsa with h1 _
                    exact h1.symm
                rw [hs0] at hmono
                simpa [statesAlong, applyEv, hsa, hs0, monoStates] using hmono
            · intro hb s hs
              simp only [statesAlong, applyEv, List.mem_cons] at hs
              rcases hs with rfl | rfl | rfl | rfl | hmem
              · exact hb
              · simp; omega
              · simp; omega
              · simp; omega
              · refine hihevs.2 ?_ s hmem
                simp
                omega

/-- Every attempted upload is immediately preceded by the plain
`totalFiles` increment. -/
theorem uploadWalk_iba (put : GoStr → PutOutcome) (dirPath pfx : GoStr) :
    ∀ (items : List WItem) (st : UpState) (prev : Option UpEvent),
      incBeforeAttempt prev (uploadWalk put dirPath pfx items st).2.2 = true := by
  intro items
  induction items with
  | nil => intro st prev; rfl
  | cons it rest ih =>
    intro st prev
    cases it with
    | errItem p => rfl
    | dirItem p => exact ih st prev
    | fileItem p =>
      cases hup : uploadFileToS3 put p with
      | some e =>
        rw [show (uploadWalk put dirPath pfx (WItem.fileItem p :: rest) st).2.2 =
            [UpEvent.plainInc Counter.total, UpEvent.attempt p (s3Key pfx dirPath p)] by
          simp [uploadWalk, hup]]
        rfl
      | none =>
        cases hrec : uploadWalk put dirPath pfx rest
            ⟨st.totalFiles + 1, st.uploadedFiles + 1⟩ with
        | mk r q =>
          cases q with
          | mk stF evs =>
            rw [show (uploadWalk put dirPath pfx (WItem.fileItem p :: rest) st).2.2 =
                UpEvent.plainInc Counter.total :: UpEvent.attempt p (s3Key pfx dirPath p) ::
                UpEvent.atomicInc Counter.uploaded ::
                UpEvent.emit (st.uploadedFiles + 1) (st.totalFiles + 1) p :: evs by
              simp [uploadWalk, hup, hrec]]
            have hih := ih ⟨st.totalFiles + 1, st.uploadedFiles + 1⟩
              (some (UpEvent.emit (st.uploadedFiles + 1) (st.totalFiles + 1) p))
            rw [hrec] at hih
            simp only at hih
            simp [incBeforeAttempt, hih]

/-- At every progress emission the two counters are equal (and exceed
the initial value of `uploadedFiles`). -/
theorem uploadWalk_emits (put : GoStr → PutOutcome) (dirPath pfx : GoStr) :
    ∀ (items : List WItem) (st : UpState), st.uploadedFiles = st.totalFiles →
      ∀ u t p, UpEvent.emit u t p ∈ (uploadWalk put dirPath pfx items st).2.2 →
        u = t ∧ st.uploadedFiles < u := by
  intro items
  induction items with
  | nil => intro st _ u t p hm; simp [uploadWalk] at hm
  | cons it rest ih =>
    intro st hbal u t p hm
    cases it with
    | errItem q => simp [uploadWalk] at hm
    | dirItem q => exact ih st hbal u t p hm
    | fileItem q =>
      cases hup : uploadFileToS3 put q with
      | some e =>
        rw [show (uploadWalk put dirPath pfx (WItem.fileItem q :: rest) st).2.2 =
            [UpEvent.plainInc Counter.total, UpEvent.attempt q (s3Key pfx dirPath q)] by
          simp [uploadWalk, hup]] at hm
        simp at hm
      | none =>
        cases hrec : uploadWalk put dirPath pfx rest
            ⟨st.totalFiles + 1, st.uploadedFiles + 1⟩ with
        | mk r w =>
          cases w with
          | mk stF evs =>
            rw [show (uploadWalk put dirPath pfx (WItem.fileItem q :: rest) st).2.2 =
                UpEvent.plainInc Counter.total :: UpEvent.attempt q (s3Key pfx dirPath q) ::
                UpEvent.atomicInc Counter.uploaded ::
                UpEvent.emit (st.uploadedFiles + 1) (st.totalFiles + 1) q :: evs by
              simp [uploadWalk, hup, hrec]] at hm
            simp only [List.mem_cons] at hm
            rcases hm with h1 | h1 | h1 | h1 | hmem
            · exact absurd h1 (by simp)
            · exact absurd h1 (by simp)
            · exact absurd h1 (by simp)
            · injection h1 with e1 e2 e3
              subst e1; subst e2
              exact ⟨by omega, by omega⟩
            · have hih := ih ⟨st.totalFiles + 1, st.uploadedFiles + 1⟩
                (show st.uploadedFiles + 1 = st.totalFiles + 1 by omega) u t p
              rw [hrec] at hih
              obtain ⟨hu, hlt⟩ := hih hmem
              have hlt2 : st.uploadedFiles + 1 < u := hlt
              exact ⟨hu, by omega⟩

/-- Every attempt's key is `Join(prefix, TrimPrefix(path, directoryPath))`. -/
theorem uploadWalk_keys (put : GoStr → PutOutcome) (dirPath pfx : GoStr) :
    ∀ (items : List WItem) (st : UpState) (p k : GoStr),
      UpEvent.attempt p k ∈ (uploadWalk put dirPath pfx items st).2.2 →
      k = s3Key pfx dirPath p := by
  intro items
  induction items with
  | nil => intro st p k hm; simp [uploadWalk] at hm
  | cons it rest ih =>
    intro st p k hm
    cases it with
    | errItem q => simp [uploadWalk] at hm
    | dirItem q => exact ih st p k hm
    | fileItem q =>
      cases hup : uploadFileToS3 put q with
      | some e =>
        rw [show (uploadWalk put dirPath pfx (WItem.fileItem q :: rest) st).2.2 =
            [UpEvent.plainInc Counter.total, UpEvent.attempt q (s3Key pfx dirPath q)] by
          simp [uploadWalk, hup]] at hm
        simp only [List.mem_cons, List.not_mem_nil, or_false] at hm
        rcases hm with h1 | h1
        · exact absurd h1 (by simp)
        · injection h1 with e1 e2
          subst e1; subst e2
          rfl
      | none =>
        cases hrec : uploadWalk put dirPath pfx rest
            ⟨st.totalFiles + 1, st.uploadedFiles + 1⟩ with
        | mk r w =>
          cases w with
          | mk stF evs =>
            rw [show (uploadWalk put dirPath pfx (WItem.fileItem q :: rest) st).2.2 =
                UpEvent.plainInc Counter.total :: UpEvent.attempt q (s3Key pfx dirPath q) ::
                UpEvent.atomicInc Counter.uploaded ::
                UpEvent.emit (st.uploadedFiles + 1) (st.totalFiles + 1) q :: evs by
              simp [uploadWalk, hup, hrec]] at hm
            simp only [List.mem_cons] at hm
            rcases hm with h1 | h1 | h1 | h1 | hmem
            · exact absurd h1 (by simp)
            · injection h1 with e1 e2
              subst e1; subst e2
              rfl
            · exact absurd h1 (by simp)
            · exact absurd h1 (by simp)
            · have hih := ih ⟨st.totalFiles + 1, st.uploadedFiles + 1⟩ p k
              rw [hrec] at hih
              exact hih hmem

/-- The counter-mutation discipline of the source: `uploadedFiles` only
through `atomic.AddInt64`, `totalFiles` only through a plain `++`. -/
def mutKindsOk (evs : List UpEvent) : Bool :=
  evs.all fun e =>
    match e with
    | UpEvent.plainInc c => c == Counter.total
    | UpEvent.atomicInc c => c == Counter.uploaded
    | _ => true

theorem uploadWalk_mutkinds (put : GoStr → PutOutcome) (dirPath pfx : GoStr) :
    ∀ (items : List WItem) (st : UpState),
      mutKindsOk (uploadWalk put dirPath pfx items st).2.2 = true := by
  intro items
  induction items with
  | nil => intro st; rfl
  | cons it rest ih =>
    intro st
    cases it with
    | errItem q => rfl
    | dirItem q => exact ih st
    | fileItem q =>
      cases hup : uploadFileToS3 put q with
      | some e =>
        rw [show (uploadWalk put dirPath pfx (WItem.fileItem q :: rest) st).2.2 =
            [UpEvent.plainInc Counter.total, UpEvent.attempt q (s3Key pfx dirPath q)] by
          simp [uploadWalk, hup]]
        rfl
      | none =>
        cases hrec : uploadWalk put dirPath pfx rest
            ⟨st.totalFiles + 1, st.uploadedFiles + 1⟩ with
        | mk r w =>
          cases w with
          | mk stF evs =>
            rw [show (uploadWalk put dirPath pfx (WItem.fileItem q :: rest) st).2.2 =
                UpEvent.plainInc Counter.total :: UpEvent.attempt q (s3Key pfx dirPath q) ::
                UpEvent.atomicInc Counter.uploaded ::
                UpEvent.emit (st.uploadedFiles + 1) (st.totalFiles + 1) q :: evs by
              simp [uploadWalk, hup, hrec]]
            have hih := ih ⟨st.totalFiles + 1, st.uploadedFiles + 1⟩
            rw [hrec] at hih
            simp only [mutKindsOk] at hih
            simp only [mutKindsOk, List.all_cons, hih, Bool.and_true, Bool.true_and,
              beq_self_eq_true]

/-- The error `uploadFileToS3` produces for a failing file. -/
def failErrOf (o : PutOutcome) (p : GoStr) : FileErr :=
  match o with
  | PutOutcome.openFail => FileErr.openErr p
  | PutOutcome.storeFail m => FileErr.putErr m
  | PutOutcome.putOk => FileErr.walkErr p

/-- Fail-fast: when the files before `p` all upload and `p` fails, the
walk stops at `p` — exactly the files up to and including `p` are
attempted, and the walk's error is the one produced for `p`. -/
theorem uploadWalk_failfast (put : GoStr → PutOutcome) (dirPath pfx : GoStr) :
    ∀ (pre : List GoStr) (p : GoStr) (post : List GoStr) (st : UpState),
      (∀ q ∈ pre, put q = PutOutcome.putOk) → put p ≠ PutOutcome.putOk →
      (uploadWalk put dirPath pfx
          (pre.map WItem.fileItem ++ WItem.fileItem p :: post.map WItem.fileItem) st).1 =
        some (failErrOf (put p) p) ∧
      attemptsOf (uploadWalk put dirPath pfx
          (pre.map WItem.fileItem ++ WItem.fileItem p :: post.map WItem.fileItem) st).2.2 =
        pre.map (fun q => (q, s3Key pfx dirPath q)) ++ [(p, s3Key pfx dirPath p)] := by
  intro pre
  induction pre with
  | nil =>
    intro p post st _ hfail
    cases hput : put p with
    | putOk => exact absurd hput hfail
    | openFail =>
      have hup : uploadFileToS3 put p = some (FileErr.openErr p) := by
        simp [uploadFileToS3, hput]
      constructor
      · rw [show (uploadWalk put dirPath pfx
            (List.map WItem.fileItem [] ++ WItem.fileItem p :: post.map WItem.fileItem)
            st).1 = some (FileErr.openErr p) by simp [uploadWalk, hup]]
        simp [failErrOf, hput]
      · rw [show (uploadWalk put dirPath pfx
            (List.map WItem.fileItem [] ++ WItem.fileItem p :: post.map WItem.fileItem)
            st).2.2 =
            [UpEvent.plainInc Counter.total, UpEvent.attempt p (s3Key pfx dirPath p)] by
          simp [uploadWalk, hup]]
        rfl
    | storeFail m =>
      have hup : uploadFileToS3 put p = some (FileErr.putErr m) := by
        simp [uploadFileToS3, hput]
      constructor
      · rw [show (uploadWalk put dirPath pfx
            (List.map WItem.fileItem [] ++ WItem.fileItem p :: post.map WItem.fileItem)
            st).1 = some (FileErr.putErr m) by simp [uploadWalk, hup]]
        simp [failErrOf, hput]
      · rw [show (uploadWalk put dirPath pfx
            (List.map WItem.fileItem [] ++ WItem.fileItem p :: post.map WItem.fileItem)
            st).2.2 =
            [UpEvent.plainInc Counter.total, UpEvent.attempt p (s3Key pfx dirPath p)] by
          simp [uploadWalk, hup]]
        rfl
  | cons q pre2 ih =>
    intro p post st hok hfail
    have hq : put q = PutOutcome.putOk := hok q (List.mem_cons_self q pre2)
    have hup : uploadFileToS3 put q = none := by simp [uploadFileToS3, hq]
    have hok2 : ∀ x ∈ pre2, put x = PutOutcome.putOk :=
      fun x hx => hok x (List.mem_cons_of_mem q hx)
    have hih := ih p post ⟨st.totalFiles + 1, st.uploadedFiles + 1⟩ hok2 hfail
    cases hrec : uploadWalk put dirPath pfx
        (pre2.map WItem.fileItem ++ WItem.fileItem p :: post.map WItem.fileItem)
        ⟨st.totalFiles + 1, st.uploadedFiles + 1⟩ with
    | mk r w =>
      cases w with
      | mk stF evs =>
        rw [hrec] at hih
        simp only at hih
        constructor
        · rw [show (uploadWalk put dirPath pfx
              (List.map WItem.fileItem (q :: pre2) ++
                WItem.fileItem p :: post.map WItem.fileItem) st).1 = r by
            simp [uploadWalk, hup, hrec]]
          exact hih.1
        · rw [show (uploadWalk put dirPath pfx
              (List.map WItem.fileItem (q :: pre2) ++
                WItem.fileItem p :: post.map WItem.fileItem) st).2.2 =
              UpEvent.plainInc Counter.total :: UpEvent.attempt q (s3Key pfx dirPath q) ::
              UpEvent.atomicInc Counter.uploaded ::
              UpEvent.emit (st.uploadedFiles + 1) (st.totalFiles + 1) q :: evs by
            simp [uploadWalk, hup, hrec]]
          rw [show attemptsOf
              (UpEvent.plainInc Counter.total :: UpEvent.attempt q (s3Key pfx dirPath q) ::
               UpEvent.atomicInc Counter.uploaded ::
               UpEvent.emit (st.uploadedFiles + 1) (st.totalFiles + 1) q :: evs) =
              (q, s3Key pfx dirPath q) :: attemptsOf evs from rfl,
            hih.2]
          simp

/-- Substring test: does `needle` occur inside the other string? -/
def containsB (needle : GoStr) : GoStr → Bool
  | [] => isPfx needle []
  | c :: rest => isPfx needle (c :: rest) || containsB needle rest

theorem containsB_head {needle l : GoStr} (h : isPfx needle l = true) :
    containsB needle l = true := by
  cases l with
  | nil =>
    cases needle with
    | nil => rfl
    | cons a b => simp [isPfx] at h
  | cons c r =>
    show (isPfx needle (c :: r) || containsB needle r) = true
    rw [h]
    rfl

theorem containsB_of_split (needle : GoStr) :
    ∀ (pre suf : GoStr), containsB needle (pre ++ (needle ++ suf)) = true := by
  intro pre
  induction pre with
  | nil => intro suf; exact containsB_head (isPfx_append needle suf)
  | cons c rest ih =>
    intro suf
    show (isPfx needle (c :: (rest ++ (needle ++ suf))) ||
      containsB needle (rest ++ (needle ++ suf))) = true
    rw [ih suf]
    simp

/-- The regular files of `fs` lying under `root`, as walk items. -/
def walkItemsOf (fs : FS) (root : GoStr) : List WItem :=
  ((fs.files.map Prod.fst).filter (fun p => isPfx (root ++ [sep]) p)).map WItem.fileItem

def nodeChildren : FNode → List (GoStr × FNode)
  | .file => []
  | .dir _ cs => cs

def isCounterMutation : UpEvent → Bool
  | .plainInc _ => true
  | .atomicInc _ => true
  | _ => false

def isAtomicMutation : UpEvent → Bool
  | .atomicInc _ => true
  | _ => false

/-! ## Claims -/

/-- **C1.** For every archive entry whose relative name decodes to a path
outside the destination root (the containment check of src/main.go line
72 fails on `Join(extractPath, name)`), extraction reaching that entry
fails with the path-traversal error `illegal file path: <name>` naming
the offending entry; no filesystem write is performed for that entry
(the state returned is exactly the one left by the preceding entries,
so the check runs before any write for the entry); and the whole run
creates or modifies no file outside the destination root: every file of
the aborted state was present initially or lies strictly inside the
cleaned root. -/
theorem c1_traversal_guard (fuel : Nat) (fs fs1 : FS) (dst : GoStr)
    (pre post : List ZEntry) (e : ZEntry)
    (hpre : extractEntries fuel fs dst pre = (none, fs1))
    (hskip : isPfx macosxPfx e.name = false)
    (hesc : isPfx (goClean dst ++ [sep]) (goClean (goJoin dst e.name)) = false) :
    extractEntries fuel fs dst (pre ++ e :: post) =
      (some (ExtractErr.illegalPath e.name), fs1) ∧
    ∀ pc ∈ fs1.files, pc ∈ fs.files ∨
      isPfx (goClean dst ++ [sep]) (goClean pc.1) = true := by
  constructor
  · show extractEntriesGo (extractZipFiles fuel) fs dst (pre ++ e :: post) = _
    rw [extractEntriesGo_append (extractZipFiles fuel) dst pre (e :: post) fs,
      show extractEntriesGo (extractZipFiles fuel) fs dst pre = (none, fs1) from hpre]
    show extractEntriesGo (extractZipFiles fuel) fs1 dst (e :: post) = _
    simp [extractEntriesGo, hskip, hesc]
  · intro pc hpc
    exact extractEntriesGo_inside (extractZipFiles fuel) (extractZipFiles_inside fuel)
      pre fs dst none fs1 hpre pc hpc

theorem c1_traversal_guard_witness :
    extractEntries 1 (⟨[], []⟩ : FS) "d".toList
      [ZEntry.mk "../evil".toList false 420 (Content.bytes "x".toList)] =
      (some (ExtractErr.illegalPath "../evil".toList), (⟨[], []⟩ : FS)) :=
  (c1_traversal_guard 1 ⟨[], []⟩ ⟨[], []⟩ "d".toList [] []
    (ZEntry.mk "../evil".toList false 420 (Content.bytes "x".toList))
    rfl (by decide) (by decide)).1

/-- **C2 (amended).** For an extracted regular-file entry whose name ends
in `".zip"`, the extractor recurses as `extractZipFiles(path, Dir(path))`
on the just-written file; if the recursion fails, the whole operation
aborts with the underlying error and performs no deletion — so the
nested archive file is still on disk whenever the failed nested
extraction did not itself overwrite or remove that path; if the
recursion succeeds, the nested archive file is deleted only then, and
extraction continues with the remaining entries. -/
theorem c2_nested_zip (fuel : Nat) (fs fs1 fs2 fs3 : FS) (dst : GoStr)
    (pre post : List ZEntry) (e : ZEntry)
    (hpre : extractEntries fuel fs dst pre = (none, fs1))
    (hskip : isPfx macosxPfx e.name = false)
    (hchk : isPfx (goClean dst ++ [sep]) (goClean (goJoin dst e.name)) = true)
    (hdir : e.isDir = false)
    (hzip : isSfx zipSuffix e.name = true)
    (hmk : fs1.mkdirAll (goDir (goJoin dst e.name)) = some fs2)
    (hcr : fs2.createFile (goJoin dst e.name) e.content = some fs3) :
    (∀ err fsN,
      extractZipFiles fuel fs3 (goJoin dst e.name) (goDir (goJoin dst e.name)) =
        (some err, fsN) →
      extractEntries fuel fs dst (pre ++ e :: post) = (some err, fsN) ∧
      (List.lookup (goJoin dst e.name) fsN.files =
          List.lookup (goJoin dst e.name) fs3.files →
        List.lookup (goJoin dst e.name) fsN.files = some e.content)) ∧
    (∀ fsN fsR,
      extractZipFiles fuel fs3 (goJoin dst e.name) (goDir (goJoin dst e.name)) =
        (none, fsN) →
      fsN.removeFile (goJoin dst e.name) = some fsR →
      extractEntries fuel fs dst (pre ++ e :: post) =
        extractEntries fuel fsR dst post) := by
  have hlook3 : List.lookup (goJoin dst e.name) fs3.files = some e.content := by
    rw [(createFile_eq hcr).1]
    simp [List.lookup]
  constructor
  · intro err fsN hnest
    constructor
    · show extractEntriesGo (extractZipFiles fuel) fs dst (pre ++ e :: post) = _
      rw [extractEntriesGo_append (extractZipFiles fuel) dst pre (e :: post) fs,
        show extractEntriesGo (extractZipFiles fuel) fs dst pre = (none, fs1) from hpre]
      show extractEntriesGo (extractZipFiles fuel) fs1 dst (e :: post) = _
      simp [extractEntriesGo, hskip, hchk, hdir, hzip, hmk, hcr, hnest]
    · intro hsame
      rw [hsame]
      exact hlook3
  · intro fsN fsR hnest hrm
    show extractEntriesGo (extractZipFiles fuel) fs dst (pre ++ e :: post) = _
    rw [extractEntriesGo_append (extractZipFiles fuel) dst pre (e :: post) fs,
      show extractEntriesGo (extractZipFiles fuel) fs dst pre = (none, fs1) from hpre]
    show extractEntriesGo (extractZipFiles fuel) fs1 dst (e :: post) = _
    simp [extractEntriesGo, hskip, hchk, hdir, hzip, hmk, hcr, hnest, hrm]
    rfl

theorem c2_nested_zip_witness :
    extractEntries 1 (⟨[], []⟩ : FS) "d".toList
      [ZEntry.mk "inner.zip".toList false 420 (Content.zipData [])] =
      (none, (⟨[], ["d".toList]⟩ : FS)) := by
  have h := (c2_nested_zip 1 ⟨[], []⟩ ⟨[], []⟩ ⟨[], ["d".toList]⟩
      ⟨[("d/inner.zip".toList, Content.zipData [])], ["d".toList]⟩ "d".toList [] []
      (ZEntry.mk "inner.zip".toList false 420 (Content.zipData []))
      rfl (by decide) (by decide) rfl (by decide) rfl rfl).2
      ⟨[("d/inner.zip".toList, Content.zipData [])], ["d".toList]⟩
      ⟨[], ["d".toList]⟩ rfl rfl
  rw [show ([] ++ [ZEntry.mk "inner.zip".toList false 420 (Content.zipData [])] :
      List ZEntry) =
      [ZEntry.mk "inner.zip".toList false 420 (Content.zipData [])] from rfl] at h
  rw [h]
  rfl

/-- **C2 (counterexample to the claim as stated).** The outer archive
holds `a.zip`; the written `d/a.zip` holds `b.zip`; the written
`d/b.zip` holds an entry named `a.zip` (a valid empty archive) followed
by the traversal entry `../x`.  Extracting `d/b.zip` rewrites `d/a.zip`
with the empty archive, recurses into it successfully, and therefore
`os.Remove`s `d/a.zip`; the next entry `../x` then aborts everything
with `illegal file path: ../x`.  So the nested extraction of the entry
`a.zip` fails with the underlying error, yet `d/a.zip` is no longer on
disk — refuting "the nested archive file remains on disk (is not
deleted)".  Every `io.Copy` in this trace reads from an archive file
that is untouched at that moment (the data for the rewrite of `d/a.zip`
streams from the intact `d/b.zip`); `d/a.zip` itself is only truncated,
rewritten and unlinked between reads of it, while the reader that holds
it open performs no further reads before propagating the error — so the
Go code follows the same steps on this input. -/
theorem c2_counterexample :
    (extractZipFiles 4
      ⟨[("z".toList, Content.zipData
          [ZEntry.mk "a.zip".toList false 420 (Content.zipData
            [ZEntry.mk "b.zip".toList false 420 (Content.zipData
              [ZEntry.mk "a.zip".toList false 420 (Content.zipData []),
               ZEntry.mk "../x".toList false 420 (Content.bytes "e".toList)])])])],
        []⟩
      "z".toList "d".toList).1 = some (ExtractErr.illegalPath "../x".toList) ∧
    List.lookup "d/a.zip".toList
      (extractZipFiles 4
        ⟨[("z".toList, Content.zipData
            [ZEntry.mk "a.zip".toList false 420 (Content.zipData
              [ZEntry.mk "b.zip".toList false 420 (Content.zipData
                [ZEntry.mk "a.zip".toList false 420 (Content.zipData []),
                 ZEntry.mk "../x".toList false 420 (Content.bytes "e".toList)])])])],
          []⟩
        "z".toList "d".toList).2.files = none :=
  ⟨rfl, rfl⟩

/-- **C3.** Entries under the `__MACOSX/` sentinel are never extracted
(processing such an entry is the identity on the run); sentinel
directories never contribute to the tree built by `buildTree` (pruning
them from the input leaves the result unchanged); and, since a skipped
entry changes nothing, it contributes no file to a subsequent upload
walk over the extracted tree — the upload run (and hence its
`totalFiles` counter) is unchanged. -/
theorem c3_sentinel :
    (∀ (fuel : Nat) (fs : FS) (dst : GoStr) (e : ZEntry) (rest : List ZEntry),
      isPfx macosxPfx e.name = true →
      extractEntries fuel fs dst (e :: rest) = extractEntries fuel fs dst rest) ∧
    (∀ (rootPath : GoStr) (n : FNode),
      buildTree rootPath (pruneMac n) = buildTree rootPath n) ∧
    (∀ (fuel : Nat) (fs : FS) (dst root : GoStr) (e : ZEntry) (rest : List ZEntry)
        (put : GoStr → PutOutcome) (dirPath pfx : GoStr),
      isPfx macosxPfx e.name = true →
      uploadDirectoryToS3 put dirPath pfx
          (walkItemsOf (extractEntries fuel fs dst (e :: rest)).2 root) =
        uploadDirectoryToS3 put dirPath pfx
          (walkItemsOf (extractEntries fuel fs dst rest).2 root)) := by
  have hskip : ∀ (fuel : Nat) (fs : FS) (dst : GoStr) (e : ZEntry) (rest : List ZEntry),
      isPfx macosxPfx e.name = true →
      extractEntries fuel fs dst (e :: rest) = extractEntries fuel fs dst rest := by
    intro fuel fs dst e rest h
    show extractEntriesGo (extractZipFiles fuel) fs dst (e :: rest) =
      extractEntriesGo (extractZipFiles fuel) fs dst rest
    simp [extractEntriesGo, h]
  refine ⟨hskip, buildTree_prune, ?_⟩
  intro fuel fs dst root e rest put dirPath pfx h
  rw [hskip fuel fs dst e rest h]

theorem c3_sentinel_witness :
    extractEntries 1 (⟨[], []⟩ : FS) "d".toList
      [ZEntry.mk "__MACOSX/._f".toList false 420 (Content.bytes "junk".toList)] =
      (none, (⟨[], []⟩ : FS)) := by
  rw [c3_sentinel.1 1 ⟨[], []⟩ "d".toList
    (ZEntry.mk "__MACOSX/._f".toList false 420 (Content.bytes "junk".toList)) []
    (by decide)]
  rfl

/-- **C4 (counterexample to the claim as stated).** A store-side put
failure aborts the walk, but the reported line — the directory name with
the collaborator's message appended — does not contain the failing
file's path, refuting "the error reported for the directory-upload
operation identifies the failing file's path". -/
theorem c4_counterexample :
    (uploadDirectoryToS3
      (fun p => if p = "/d/f1".toList then PutOutcome.storeFail "AccessDenied".toList
        else PutOutcome.putOk)
      "/d".toList "u/".toList [WItem.fileItem "/d/f1".toList]).1 =
      some (FileErr.putErr "AccessDenied".toList) ∧
    containsB "/d/f1".toList
      (reportLine "/d".toList (FileErr.putErr "AccessDenied".toList)) = false :=
  ⟨rfl, rfl⟩

/-- **C4 (amended).** If the K-th file of the walk fails to upload, the
later files are never attempted — the attempted uploads are exactly the
files up to and including the failing one — and the walk's error is the
one produced for that file; the reported line contains the failing
file's path when the failure came from opening the local file
(`os.Open` returns a path-bearing error), while a store-side failure is
reported with only the collaborator's message. -/
theorem c4_failfast (put : GoStr → PutOutcome) (dirPath pfx : GoStr)
    (pre : List GoStr) (p : GoStr) (post : List GoStr)
    (hok : ∀ q ∈ pre, put q = PutOutcome.putOk) (hfail : put p ≠ PutOutcome.putOk) :
    (uploadDirectoryToS3 put dirPath pfx
        (pre.map WItem.fileItem ++ WItem.fileItem p :: post.map WItem.fileItem)).1 =
      some (failErrOf (put p) p) ∧
    attemptsOf (uploadDirectoryToS3 put dirPath pfx
        (pre.map WItem.fileItem ++ WItem.fileItem p :: post.map WItem.fileItem)).2.2 =
      pre.map (fun q => (q, s3Key pfx dirPath q)) ++ [(p, s3Key pfx dirPath p)] ∧
    (put p = PutOutcome.openFail →
      containsB p (reportLine dirPath (failErrOf (put p) p)) = true) := by
  obtain ⟨h1, h2⟩ := uploadWalk_failfast put dirPath pfx pre p post ⟨0, 0⟩ hok hfail
  refine ⟨h1, h2, ?_⟩
  intro hopen
  rw [hopen]
  show containsB p (reportLine dirPath (FileErr.openErr p)) = true
  rw [show reportLine dirPath (FileErr.openErr p) =
      (("Error uploading directory ".toList ++ dirPath ++ ": ".toList) ++
        "open ".toList) ++ (p ++ ": no such file or directory".toList) by
    simp [reportLine, renderFileErr]]
  exact containsB_of_split p _ _

theorem c4_failfast_witness :
    containsB "/d/f1".toList
      (reportLine "/d".toList (failErrOf PutOutcome.openFail "/d/f1".toList)) = true := by
  have h := (c4_failfast
      (fun q => if q = "/d/f1".toList then PutOutcome.openFail else PutOutcome.putOk)
      "/d".toList "u/".toList ["/d/a".toList] "/d/f1".toList ["/d/c".toList]
      (by decide) (by decide)).2.2 (by decide)
  exact h

/-- **C5.** Over any upload walk: both counters are non-decreasing at
every observation point; `uploadedFiles ≤ totalFiles` at every
observation point; on successful completion `uploadedFiles` equals the
number of regular files walked; and `totalFiles` is incremented for each
regular file immediately before that file's upload is attempted. -/
theorem c5_progress (put : GoStr → PutOutcome) (dirPath pfx : GoStr)
    (items : List WItem) :
    monoStates (statesAlong ⟨0, 0⟩ (uploadDirectoryToS3 put dirPath pfx items).2.2) =
      true ∧
    (∀ s ∈ statesAlong ⟨0, 0⟩ (uploadDirectoryToS3 put dirPath pfx items).2.2,
      s.uploadedFiles ≤ s.totalFiles) ∧
    ((uploadDirectoryToS3 put dirPath pfx items).1 = none →
      (uploadDirectoryToS3 put dirPath pfx items).2.1.uploadedFiles =
        (countFiles items : Int)) ∧
    incBeforeAttempt none (uploadDirectoryToS3 put dirPath pfx items).2.2 = true := by
  refine ⟨(uploadWalk_states put dirPath pfx items ⟨0, 0⟩).1,
    (uploadWalk_states put dirPath pfx items ⟨0, 0⟩).2 (le_refl 0), ?_,
    uploadWalk_iba put dirPath pfx items ⟨0, 0⟩ none⟩
  intro hnone
  have hc := (uploadWalk_counts put dirPath pfx items ⟨0, 0⟩ hnone).1
  rw [show (uploadDirectoryToS3 put dirPath pfx items).2.1.uploadedFiles =
      (uploadWalk put dirPath pfx items ⟨0, 0⟩).2.1.uploadedFiles from rfl, hc]
  show (0 : Int) + (countFiles items : Int) = (countFiles items : Int)
  omega

theorem c5_progress_witness :
    (uploadDirectoryToS3 (fun _ => PutOutcome.putOk) "/d".toList "u/".toList
      [WItem.fileItem "/d/a".toList, WItem.fileItem "/d/b".toList]).2.1.uploadedFiles =
      (countFiles [WItem.fileItem "/d/a".toList, WItem.fileItem "/d/b".toList] : Int) :=
  (c5_progress (fun _ => PutOutcome.putOk) "/d".toList "u/".toList
    [WItem.fileItem "/d/a".toList, WItem.fileItem "/d/b".toList]).2.2.1 rfl

/-- **C6.** Every attempted upload's object key is
`filepath.Join(prefix, strings.TrimPrefix(path, directoryPath))`, i.e.
the key prefix joined with the file's path relative to the walked
directory, preserving sub-directory structure. -/
theorem c6_object_key (put : GoStr → PutOutcome) (dirPath pfx : GoStr)
    (items : List WItem) (p k : GoStr)
    (hm : UpEvent.attempt p k ∈ (uploadDirectoryToS3 put dirPath pfx items).2.2) :
    k = goJoin pfx (goTrimPfx p dirPath) :=
  uploadWalk_keys put dirPath pfx items ⟨0, 0⟩ p k hm

theorem c6_object_key_witness :
    "uploads/sub/f.txt".toList =
      goJoin "uploads/".toList (goTrimPfx "/tmp/x/sub/f.txt".toList "/tmp/x".toList) :=
  c6_object_key (fun _ => PutOutcome.putOk) "/tmp/x".toList "uploads/".toList
    [WItem.fileItem "/tmp/x/sub/f.txt".toList] "/tmp/x/sub/f.txt".toList
    "uploads/sub/f.txt".toList (by decide)

/-- **C7.** `buildTree(rootPath)` fails exactly when the root or some
recursively visited sub-directory cannot be listed; on success the root
node's name is `rootPath` and its children correspond 1:1, in
enumeration order, to the sub-directories present excluding the
`__MACOSX` sentinel — regular files contribute no nodes. -/
theorem c7_buildTree (rootPath : GoStr) (n : FNode) :
    ((∃ t, buildTree rootPath n = Except.ok t) ↔ visitFails n = false) ∧
    (∀ t, buildTree rootPath n = Except.ok t →
      t.name = rootPath ∧
      t.children.map TreeNode.name =
        ((nodeChildren n).filter
            (fun nc => nc.2.isDirNode && decide (nc.1 ≠ macosxName))).map
          (fun nc => goJoin rootPath nc.1)) := by
  refine ⟨buildTree_ok_iff rootPath n, ?_⟩
  intro t ht
  cases n with
  | file => exact absurd ht (by simp [buildTree])
  | dir b cs => exact buildTree_ok_shape ht

theorem c7_buildTree_witness :
    (⟨"root/a".toList, ([] : List TreeNode)⟩ : TreeNode) ∈
        (⟨"root".toList, [⟨"root/a".toList, []⟩]⟩ : TreeNode).children ∧
    (⟨"root".toList, [⟨"root/a".toList, []⟩]⟩ : TreeNode).name = "root".toList := by
  have h := (c7_buildTree "root".toList
      (FNode.dir true
        [("a".toList, FNode.dir true []),
         ("__MACOSX".toList, FNode.dir true []),
         ("f".toList, FNode.file)])).2
      ⟨"root".toList, [⟨"root/a".toList, []⟩]⟩ rfl
  exact ⟨by simp, h.1⟩

/-- **C8 (counterexample to the claim as stated).** The trace of a
single-file upload contains a counter mutation that is not atomic — the
`totalFiles++` of src/main.go line 169 — refuting "both progress
counters are mutated only with atomic increment operations". -/
theorem c8_counterexample :
    ¬ (∀ e ∈ (uploadDirectoryToS3 (fun _ => PutOutcome.putOk) "/d".toList "u/".toList
        [WItem.fileItem "/d/a".toList]).2.2,
      isCounterMutation e = true → isAtomicMutation e = true) := by decide

/-- **C8 (amended).** Within one upload run, `uploadedFiles` is mutated
only through the atomic increment (`atomic.AddInt64`, line 186), while
`totalFiles` is mutated only through the plain non-atomic `++` of line
169. -/
theorem c8_mutation_kinds (put : GoStr → PutOutcome) (dirPath pfx : GoStr)
    (items : List WItem) :
    mutKindsOk (uploadDirectoryToS3 put dirPath pfx items).2.2 = true :=
  uploadWalk_mutkinds put dirPath pfx items ⟨0, 0⟩

/-- **C9.** `extractZipFiles` creates the destination root (including
ancestors) before attempting to open the archive: when the archive
cannot be opened, the run fails with the archive-open error while the
destination root and all its ancestors already exist in the resulting
filesystem (files unchanged). -/
theorem c9_root_before_open (fuel : Nat) (fs fs1 : FS) (zp dst : GoStr)
    (hmk : fs.mkdirAll dst = some fs1) (hop : fs1.openZip zp = none) :
    extractZipFiles (fuel + 1) fs zp dst =
      (some (ExtractErr.archiveOpenErr zp), fs1) ∧
    (∀ q ∈ mkdirPaths dst, q ∈ fs1.dirs) ∧ fs1.files = fs.files := by
  refine ⟨?_, mkdirAll_dirs_mem hmk, mkdirAll_files hmk⟩
  simp [extractZipFiles, hmk, hop]

theorem c9_root_before_open_witness :
    extractZipFiles 1 (⟨[], []⟩ : FS) "z".toList "a/b".toList =
      (some (ExtractErr.archiveOpenErr "z".toList),
        (⟨[], ["a".toList, "a/b".toList]⟩ : FS)) :=
  (c9_root_before_open 0 ⟨[], []⟩ ⟨[], ["a".toList, "a/b".toList]⟩ "z".toList
    "a/b".toList rfl rfl).1

/-- **C10.** At every progress emission of an upload run the two
counters are equal and at least one, so the printed percentage
`uploadedFiles / totalFiles * 100` is exactly 100%. -/
theorem c10_progress_hundred (put : GoStr → PutOutcome) (dirPath pfx : GoStr)
    (items : List WItem) (u t : Int) (p : GoStr)
    (hm : UpEvent.emit u t p ∈ (uploadDirectoryToS3 put dirPath pfx items).2.2) :
    u = t ∧ 1 ≤ t ∧ progressPct u t = 100 := by
  obtain ⟨hu, hlt⟩ := uploadWalk_emits put dirPath pfx items ⟨0, 0⟩ rfl u t p hm
  have h0 : (0 : Int) < u := hlt
  refine ⟨hu, by omega, ?_⟩
  show (u : ℚ) / (t : ℚ) * 100 = 100
  rw [← hu]
  have hne : (u : ℚ) ≠ 0 := Int.cast_ne_zero.mpr (by omega)
  rw [div_self hne]
  norm_num

theorem c10_progress_hundred_witness :
    progressPct 1 1 = 100 :=
  (c10_progress_hundred (fun _ => PutOutcome.putOk) "/d".toList "u/".toList
    [WItem.fileItem "/d/a".toList] 1 1 "/d/a".toList (by decide)).2.2

end S3Up
